import Mathlib

/-!
# xor.c: chunked XOR combination of equal-length byte streams

A shallow embedding of `src/xor.c`.  Bytes are `BitVec 8`; the C `size_t`
quantities are natural numbers; the `uint64_t` lanes of `Buffer_xor_uint64`
are natural numbers assembled from and split into eight bytes.  The C
library is modelled by `fread` and `fwrite` below; everything the
environment decides (allocation results, the result of opening an argument,
read failures, what the sink accepts) is a parameter.
-/

namespace Xor

/-- One octet of storage. -/
abbrev Byte := BitVec 8

/-! ## The C library -/

/-- An input stream (`FILE *` opened for reading): the bytes not yet consumed,
the number of `fread` calls that still succeed before one reports a read
error (`none`: never), and the end-of-file and error indicators. -/
structure InFile where
  data : List Byte
  failAt : Option Nat
  eof : Bool
  error : Bool
  deriving DecidableEq, Repr

/-- The output stream (`stdout`): the bytes the stream has accepted so far,
the error indicator and the number of non-empty `fwrite` calls made on it. -/
structure OutFile where
  written : List Byte
  error : Bool
  calls : Nat
  deriving DecidableEq, Repr

/-- Model of `fread(memory, 1, size, handle)`: a failing call sets the error
indicator and obtains nothing; otherwise the call obtains
`min size remaining` bytes into the front of `memory`, and sets the
end-of-file indicator exactly when it obtained fewer than `size` bytes. -/
def fread (size : Nat) (memory : List Byte) (handle : InFile) : Nat × List Byte × InFile :=
  match handle.failAt with
  | some 0 => (0, memory, { handle with error := true })
  | _ =>
    let n := min size handle.data.length
    (n, handle.data.take n ++ memory.drop n,
      { data := handle.data.drop n
        failAt := handle.failAt.map (fun k => k - 1)
        eof := handle.eof || decide (n < size)
        error := handle.error })

/-- Model of `fwrite(bytes, 1, bytes.length, handle)`.  The sink answers the
call number and the requested count with the count it is willing to accept
and whether the call sets the error indicator.  As in ISO C, a count short of
the request comes only with a write error, so it always sets the error
indicator.  A request of zero bytes returns zero and leaves the stream
unchanged.  The bytes accepted are those the stream has taken over; an output
stream is buffered, so they may reach the device only at a later flush (see
`fclose`). -/
def fwrite (respond : Nat → Nat → Nat × Bool) (bytes : List Byte) (handle : OutFile) :
    Nat × OutFile :=
  if bytes.length = 0 then (0, handle)
  else
    let r := respond handle.calls bytes.length
    let n := min bytes.length r.1
    (n, { written := handle.written ++ bytes.take n
          error := handle.error || r.2 || decide (n < bytes.length)
          calls := handle.calls + 1 })

/-! ## struct Buffer -/

/-- The C `struct Buffer`: `memory` is `none` for a NULL pointer. -/
structure Buffer where
  size : Nat
  memory : Option (List Byte)
  taken : Nat
  deriving DecidableEq, Repr

/-- `Buffer_new`: `alloc` is the answer of `malloc(size)`, either NULL or a
region of `size` bytes with indeterminate contents `g 0, g 1, ...`. -/
def Buffer_new (size : Nat) (alloc : Option (Nat → Byte)) : Buffer :=
  { size := size
    taken := 0
    memory := alloc.map (fun g => (List.range size).map g) }

/-- `Buffer_readFromFile`.  `none` is abnormal termination: the assertion
`buffer->taken == 0` fails, or the memory pointer is NULL.  The assertion
`handle != NULL` holds by the type of `handle`. -/
def Buffer_readFromFile (buffer : Buffer) (handle : InFile) : Option (Buffer × InFile) :=
  if buffer.taken ≠ 0 then none
  else
    match buffer.memory with
    | none => none
    | some mem =>
      let r := fread buffer.size mem handle
      some ({ buffer with memory := some r.2.1, taken := r.1 }, r.2.2)

/-- `Buffer_dump`. -/
def Buffer_dump (buffer : Buffer) : Buffer :=
  { buffer with taken := 0 }

/-- `Buffer_zero`: `bzero(memory, size)`; `none` when the pointer is NULL. -/
def Buffer_zero (buffer : Buffer) : Option Buffer :=
  match buffer.memory with
  | none => none
  | some mem =>
    some { buffer with memory := some (List.replicate buffer.size 0 ++ mem.drop buffer.size) }

/-- Value of a sequence of bytes read as a little-endian unsigned integer. -/
def loadLE : List Byte → Nat
  | [] => 0
  | b :: bs => b.toNat + 256 * loadLE bs

/-- The `n` low-order bytes of `v`, least significant first. -/
def storeLE : Nat → Nat → List Byte
  | 0, _ => []
  | n + 1, v => BitVec.ofNat 8 v :: storeLE n (v / 256)

/-- Byte order of a lane in memory: reversed on a big-endian machine. -/
def laneOrder (bigEndian : Bool) (bytes : List Byte) : List Byte :=
  if bigEndian then bytes.reverse else bytes

/-- The `uint64_t` value `mem[chunkIndex]` of memory viewed as `uint64_t *`. -/
def readU64 (bigEndian : Bool) (mem : List Byte) (chunkIndex : Nat) : Nat :=
  loadLE (laneOrder bigEndian ((mem.drop (8 * chunkIndex)).take 8))

/-- The assignment `mem[chunkIndex] = v` on memory viewed as `uint64_t *`. -/
def writeU64 (bigEndian : Bool) (mem : List Byte) (chunkIndex : Nat) (v : Nat) : List Byte :=
  mem.take (8 * chunkIndex) ++ laneOrder bigEndian (storeLE 8 (v % 2 ^ 64))
    ++ mem.drop (8 * chunkIndex + 8)

/-- `Buffer_xor_uint64`: XOR the buffers lane by lane, storing the result in
`left`.  `none` is abnormal termination: one of the two assertions on the
sizes fails, or a memory pointer is NULL.  The loop counter, an
`unsigned int` in the source, is a natural number here, which is exact as
long as the number of lanes is below `2 ^ 32` (the program has 131072). -/
def Buffer_xor_uint64 (bigEndian : Bool) (left right : Buffer) : Option Buffer :=
  let chunkSize := 8
  if left.size ≠ right.size then none
  else if left.size % chunkSize ≠ 0 then none
  else
    match left.memory, right.memory with
    | some leftMem, some rightMem =>
      let chunkCount := left.size / chunkSize
      some { left with
        memory := some ((List.range chunkCount).foldl
          (fun mem chunkIndex =>
            writeU64 bigEndian mem chunkIndex
              (readU64 bigEndian mem chunkIndex ^^^ readU64 bigEndian rightMem chunkIndex))
          leftMem) }
    | _, _ => none

/-- `Buffer_writeToFile`: `fwrite(memory, 1, taken, handle)`; `none` when the
memory pointer is NULL. -/
def Buffer_writeToFile (respond : Nat → Nat → Nat × Bool) (buffer : Buffer)
    (handle : OutFile) : Option (Nat × OutFile) :=
  match buffer.memory with
  | none => none
  | some mem => some (fwrite respond (mem.take buffer.taken) handle)

/-! ## main -/

/-- The C `struct File` of a prepared input: the handle is not NULL. -/
structure File where
  name : String
  handle : InFile
  buffer : Buffer
  deriving DecidableEq, Repr

/-- `bufferSize = sizeof(uint64_t) * 131072`. -/
def bufferSize : Nat := 8 * 131072

/-- The messages `main` prints to `stderr`. -/
inductive Diag where
  | outputBufferAlloc (bytes : Nat)
  | needInput
  | structAlloc (fileCount : Nat)
  | openFailed (name : String)
  | inputBufferAlloc (bytes : Nat) (fileIndex : Nat)
  | readError (name : String)
  | lengthMismatch (got : Nat) (name : String) (expected : Nat)
  | writeError
  deriving DecidableEq, Repr

/-- What the environment answers for one command-line argument: the stream
obtained for it (`stdin` for the name `-`, the result of `fopen` otherwise;
`none` is NULL) and the answer of `malloc` for its buffer.  Every argument
has a stream of its own. -/
structure Arg where
  name : String
  handle : Option InFile
  memory : Option (Nat → Byte)

/-- The rest of the environment: the byte order of the machine, the answer of
`malloc` for the output buffer, whether `calloc` of the `File` structures
succeeds, and the behaviour of the sink (see `fwrite`). -/
structure Env where
  bigEndian : Bool
  outputMemory : Option (Nat → Byte)
  callocOk : Bool
  respond : Nat → Nat → Nat × Bool

/-- How a run ends: `return` from `main` with a code, abnormal termination
(failed assertion or NULL access), or still running when the fuel is spent. -/
inductive Outcome where
  | exit (code : Int)
  | aborted
  | running
  deriving DecidableEq, Repr

/-- The observable result of a run, with the number of loop iterations
started; `stdout` holds the bytes the output stream accepted. -/
structure Result where
  outcome : Outcome
  stdout : List Byte
  stderr : List Diag
  iterations : Nat
  deriving DecidableEq, Repr

/-- The variables of `main` that the loop works on. -/
structure State where
  inputFiles : List File
  outputBuffer : Buffer
  outputFileHandle : OutFile
  stderr : List Diag
  deriving DecidableEq, Repr

/-- `cleanupAndReturn`: closes the streams, discarding what `fclose` returns,
frees the buffers and hands the return code through. -/
def cleanupAndReturn (returnCode : Int) : Int := returnCode

/-- The loop "Prepare File structures": stops with code 2 at the first
argument that cannot be opened and with code 3 at the first buffer that
cannot be allocated. -/
def prepareFiles (bufferSize : Nat) : List Arg → Nat → Except (Int × Diag) (List File)
  | [], _ => .ok []
  | a :: rest, fileIndex =>
    match a.handle with
    | none => .error (cleanupAndReturn 2, Diag.openFailed a.name)
    | some newHandle =>
      let buffer := Buffer_new bufferSize a.memory
      if buffer.memory.isNone then
        .error (cleanupAndReturn 3, Diag.inputBufferAlloc bufferSize fileIndex)
      else
        match prepareFiles bufferSize rest (fileIndex + 1) with
        | .error e => .error e
        | .ok files => .ok ({ name := a.name, handle := newHandle, buffer := buffer } :: files)

/-- Result of the loop "Read from all files". -/
inductive ReadAll where
  | ok (files : List File)
  | failed (name : String) (files : List File)
  | aborted
  deriving DecidableEq, Repr

/-- The loop "Read from all files": fills the buffers in order and stops at
the first stream whose error indicator is set after its read. -/
def readFromAll : List File → ReadAll
  | [] => .ok []
  | file :: rest =>
    match Buffer_readFromFile file.buffer file.handle with
    | none => .aborted
    | some (buffer, handle) =>
      let file1 : File := { file with buffer := buffer, handle := handle }
      if handle.error then .failed file.name (file1 :: rest)
      else
        match readFromAll rest with
        | .ok rest1 => .ok (file1 :: rest1)
        | .failed name rest1 => .failed name (file1 :: rest1)
        | .aborted => .aborted

/-- The loop under "Xor": accumulates every input buffer into the output
buffer, in order. -/
def xorAllInto (bigEndian : Bool) : Buffer → List File → Option Buffer
  | out, [] => some out
  | out, file :: rest =>
    match Buffer_xor_uint64 bigEndian out file.buffer with
    | none => none
    | some out1 => xorAllInto bigEndian out1 rest

/-- How one pass through the body of `while (1)` ends. -/
inductive Step where
  | next (st : State)
  | done (code : Int) (st : State)
  | crash (st : State)
  deriving DecidableEq, Repr

/-- One pass through the body of `while (1)`. -/
def loopBody (env : Env) (st : State) : Step :=
  -- Read from all files
  match readFromAll st.inputFiles with
  | .aborted => .crash st
  | .failed name files =>
    .done (cleanupAndReturn 5)
      { st with inputFiles := files, stderr := st.stderr ++ [Diag.readError name] }
  | .ok files =>
    -- Check that we read same amount of bytes from each file
    let correctReadBytes := match files with
      | file :: _ => file.buffer.taken
      | [] => 0
    match files.find? (fun file => file.buffer.taken != correctReadBytes) with
    | some file =>
      .done (cleanupAndReturn 6)
        { st with
          inputFiles := files
          stderr := st.stderr ++
            [Diag.lengthMismatch file.buffer.taken file.name correctReadBytes] }
    | none =>
      -- Xor
      match Buffer_zero st.outputBuffer with
      | none => .crash { st with inputFiles := files }
      | some zeroed =>
        match xorAllInto env.bigEndian { zeroed with taken := correctReadBytes } files with
        | none => .crash { st with inputFiles := files }
        | some out =>
          -- Write output buffer
          match Buffer_writeToFile env.respond out st.outputFileHandle with
          | none => .crash { st with inputFiles := files, outputBuffer := out }
          | some (_, sink) =>
            -- Check writing
            if sink.error then
              .done (cleanupAndReturn 7)
                { inputFiles := files, outputBuffer := out, outputFileHandle := sink
                  stderr := st.stderr ++ [Diag.writeError] }
            else
              -- Clear all buffers
              let dumped := files.map (fun file => { file with buffer := Buffer_dump file.buffer })
              let st1 : State :=
                { inputFiles := dumped, outputBuffer := out, outputFileHandle := sink
                  stderr := st.stderr }
              -- Check EOF on all files
              let allEof := dumped.all (fun file => file.handle.eof)
              if allEof then .done (cleanupAndReturn 0) st1 else .next st1

/-- The loop `while (1)`, run for at most `fuel` passes; `iterations` counts
the passes already made. -/
def mainLoop (env : Env) : Nat → Nat → State → Result
  | 0, iterations, st =>
    { outcome := .running, stdout := st.outputFileHandle.written, stderr := st.stderr
      iterations := iterations }
  | fuel + 1, iterations, st =>
    match loopBody env st with
    | .next st1 => mainLoop env fuel (iterations + 1) st1
    | .done code st1 =>
      { outcome := .exit code, stdout := st1.outputFileHandle.written, stderr := st1.stderr
        iterations := iterations + 1 }
    | .crash st1 =>
      { outcome := .aborted, stdout := st1.outputFileHandle.written, stderr := st1.stderr
        iterations := iterations + 1 }

/-- The program: `argv` holds the arguments after the program name, so that
`fileCount = argv.length`. -/
def main (bufferSize : Nat) (env : Env) (argv : List Arg) (fuel : Nat) : Result :=
  let fileCount := argv.length
  let outputBuffer := Buffer_new bufferSize env.outputMemory
  -- Check output buffer creation
  if outputBuffer.memory.isNone then
    { outcome := .exit (cleanupAndReturn 4), stdout := []
      stderr := [Diag.outputBufferAlloc bufferSize], iterations := 0 }
  -- Check parameters
  else if fileCount < 1 then
    { outcome := .exit (cleanupAndReturn 1), stdout := [], stderr := [Diag.needInput]
      iterations := 0 }
  -- Allocate memory for File structures
  else if !env.callocOk then
    { outcome := .exit (cleanupAndReturn 1), stdout := []
      stderr := [Diag.structAlloc fileCount], iterations := 0 }
  else
    -- Prepare File structures
    match prepareFiles bufferSize argv 0 with
    | .error (code, diag) =>
      { outcome := .exit code, stdout := [], stderr := [diag], iterations := 0 }
    | .ok inputFiles =>
      -- Read & Xor
      mainLoop env fuel 0
        { inputFiles := inputFiles
          outputBuffer := outputBuffer
          outputFileHandle := { written := [], error := false, calls := 0 }
          stderr := [] }

/-! ## Auxiliary definitions for the statements and proofs -/

/-- Byte-wise XOR of two byte sequences, up to the shorter one. -/
def xorBytes (a b : List Byte) : List Byte :=
  List.zipWith (fun x y => x ^^^ y) a b

/-- A source of the stream model: a name, the bytes the stream holds, and the
indeterminate initial contents of the buffer allocated for it. -/
structure Source where
  name : String
  data : List Byte
  garbage : Nat → Byte

/-- The command-line argument of a source that opens, never fails to read and
gets its buffer. -/
def Source.toArg (s : Source) : Arg :=
  { name := s.name
    handle := some { data := s.data, failAt := none, eof := false, error := false }
    memory := some s.garbage }

/-- An environment without failures: both allocations succeed and the sink
accepts every byte without error. -/
def idealEnv (bigEndian : Bool) (garbage : Nat → Byte) : Env :=
  { bigEndian := bigEndian
    outputMemory := some garbage
    callocOk := true
    respond := fun _ n => (n, false) }

/-- XOR of all sequences in `datas`, over the positions below `K`. -/
def xorAll (K : Nat) (datas : List (List Byte)) : List Byte :=
  datas.foldl xorBytes (List.replicate K 0)

/-- XOR of the bytes at position `i` of all sequences in `datas`. -/
def xorColumn (datas : List (List Byte)) (i : Nat) : Byte :=
  datas.foldl (fun acc s => acc ^^^ s.getD i 0) 0

/-- An input at the head of the loop: its unread bytes and buffer contents. -/
structure Feed where
  name : String
  data : List Byte
  mem : List Byte

/-- The `File` of a feed at the head of the loop. -/
def Feed.file (C : Nat) (f : Feed) : File :=
  { name := f.name
    handle := { data := f.data, failAt := none, eof := false, error := false }
    buffer := { size := C, memory := some f.mem, taken := 0 } }

/-- Buffer contents of a feed after its read. -/
def Feed.filledMem (C : Nat) (f : Feed) : List Byte :=
  f.data.take (min C f.data.length) ++ f.mem.drop (min C f.data.length)

/-- The `File` of a feed after its read. -/
def Feed.filled (C : Nat) (f : Feed) : File :=
  { name := f.name
    handle :=
      { data := f.data.drop (min C f.data.length), failAt := none
        eof := decide (min C f.data.length < C), error := false }
    buffer := { size := C, memory := some (f.filledMem C), taken := min C f.data.length } }

/-- The feed after a pass that obtained a full chunk. -/
def Feed.advance (C : Nat) (f : Feed) : Feed :=
  { name := f.name, data := f.data.drop C, mem := f.data.take C ++ f.mem.drop C }

/-- The state at the head of the loop in a run without failures. -/
def headState (C : Nat) (feeds : List Feed) (outMem : List Byte) (outTaken : Nat)
    (written : List Byte) (calls : Nat) (stderr : List Diag) : State :=
  { inputFiles := feeds.map (Feed.file C)
    outputBuffer := { size := C, memory := some outMem, taken := outTaken }
    outputFileHandle := { written := written, error := false, calls := calls }
    stderr := stderr }

/-- The feed of a source at the start of the loop: nothing consumed, buffer
contents as allocated. -/
def Source.feed (C : Nat) (s : Source) : Feed :=
  { name := s.name, data := s.data, mem := (List.range C).map s.garbage }

/-- Whether the read of this file, made at the head of a pass, goes through
and leaves the error indicator of its stream clear. -/
def File.fillSucceeds (file : File) : Bool :=
  match Buffer_readFromFile file.buffer file.handle with
  | some (_, handle) => !handle.error
  | none => false

/-- Whether the read of this file, made at the head of a pass, goes through
and leaves the error indicator of its stream set. -/
def File.fillReportsError (file : File) : Bool :=
  match Buffer_readFromFile file.buffer file.handle with
  | some (_, handle) => handle.error
  | none => false

/-- A state at the head of a pass, after one pass that wrote `[3, 3]`, with
three inputs of capacity 8, the second of which is about to fail. -/
def readFailureState : State :=
  { inputFiles :=
      [ { name := "first"
          handle := { data := [1, 2], failAt := none, eof := false, error := false }
          buffer := { size := 8, memory := some [0, 0, 0, 0, 0, 0, 0, 0], taken := 0 } },
        { name := "second"
          handle := { data := [4, 5], failAt := some 0, eof := false, error := false }
          buffer := { size := 8, memory := some [0, 0, 0, 0, 0, 0, 0, 0], taken := 0 } },
        { name := "third"
          handle := { data := [6, 7], failAt := none, eof := false, error := false }
          buffer := { size := 8, memory := some [0, 0, 0, 0, 0, 0, 0, 0], taken := 0 } } ]
    outputBuffer := { size := 8, memory := some [3, 3, 0, 0, 0, 0, 0, 0], taken := 2 }
    outputFileHandle := { written := [3, 3], error := false, calls := 1 }
    stderr := [] }

/-- An environment whose sink accepts one byte per call and sets its error
indicator. -/
def failingSinkEnv : Env :=
  { bigEndian := false
    outputMemory := some (fun _ => 0)
    callocOk := true
    respond := fun _ _ => (1, true) }

/-- The XOR-accumulate of the specification with lanes of one byte: for every
position below the capacity, `left[i] ^= right[i]`.  This is the reference
that `Buffer_xor_uint64` is compared with. -/
def Buffer_xor_uint8 (left right : Buffer) : Option Buffer :=
  if left.size ≠ right.size then none
  else
    match left.memory, right.memory with
    | some leftMem, some rightMem =>
      some { left with
        memory := some ((List.range left.size).foldl
          (fun mem i => mem.set i (mem.getD i 0 ^^^ rightMem.getD i 0)) leftMem) }
    | _, _ => none

/-- The input files as the reads of a pass leave them, when no read fails. -/
def filesAfterRead (st : State) : List File :=
  match readFromAll st.inputFiles with
  | ReadAll.ok files => files
  | _ => []

/-- A state at the head of a pass, capacity 8, whose first input holds two
bytes and whose other two inputs hold three. -/
def shortFirstState : State :=
  { inputFiles :=
      [ { name := "a"
          handle := { data := [1, 2], failAt := none, eof := false, error := false }
          buffer := { size := 8, memory := some [0, 0, 0, 0, 0, 0, 0, 0], taken := 0 } },
        { name := "b"
          handle := { data := [3, 4, 5], failAt := none, eof := false, error := false }
          buffer := { size := 8, memory := some [0, 0, 0, 0, 0, 0, 0, 0], taken := 0 } },
        { name := "c"
          handle := { data := [6, 7, 8], failAt := none, eof := false, error := false }
          buffer := { size := 8, memory := some [0, 0, 0, 0, 0, 0, 0, 0], taken := 0 } } ]
    outputBuffer := { size := 8, memory := some [0, 0, 0, 0, 0, 0, 0, 0], taken := 0 }
    outputFileHandle := { written := [], error := false, calls := 0 }
    stderr := [] }

/-- The state `shortFirstState` with the short input last. -/
def shortLastState : State :=
  { inputFiles :=
      [ { name := "b"
          handle := { data := [3, 4, 5], failAt := none, eof := false, error := false }
          buffer := { size := 8, memory := some [0, 0, 0, 0, 0, 0, 0, 0], taken := 0 } },
        { name := "c"
          handle := { data := [6, 7, 8], failAt := none, eof := false, error := false }
          buffer := { size := 8, memory := some [0, 0, 0, 0, 0, 0, 0, 0], taken := 0 } },
        { name := "a"
          handle := { data := [1, 2], failAt := none, eof := false, error := false }
          buffer := { size := 8, memory := some [0, 0, 0, 0, 0, 0, 0, 0], taken := 0 } } ]
    outputBuffer := { size := 8, memory := some [0, 0, 0, 0, 0, 0, 0, 0], taken := 0 }
    outputFileHandle := { written := [], error := false, calls := 0 }
    stderr := [] }

/-- Storage of the output buffer after `Buffer_zero` and the accumulation of
the input buffers as the reads of the pass left them. -/
def accumulated (C : Nat) (feeds : List Feed) (outMem : List Byte) : List Byte :=
  (feeds.map (Feed.filledMem C)).foldl xorBytes (List.replicate C 0 ++ outMem.drop C)

/-- The invariant of a chunk buffer of capacity `C`: the size is `C`, `taken`
does not exceed the size, and the storage, when allocated, has `C` bytes. -/
def Buffer.inv (C : Nat) (b : Buffer) : Prop :=
  b.size = C ∧ b.taken ≤ b.size ∧
    match b.memory with
    | some mem => mem.length = C
    | none => True

/-- A buffer of size `C` whose storage is allocated. -/
def Buffer.live (C : Nat) (b : Buffer) : Prop :=
  b.size = C ∧ b.memory.isSome = true

/-- What holds of the state at the head of every pass: every input buffer is
allocated with size `C` and has `taken = 0`, and the output buffer is
allocated with size `C`. -/
def State.ready (C : Nat) (st : State) : Prop :=
  (∀ f ∈ st.inputFiles, f.buffer.live C ∧ f.buffer.taken = 0) ∧ st.outputBuffer.live C

/-- The lane counter of `Buffer_xor_uint64` in the code, `unsigned int
chunkIndex` (32 bits), after the given number of increments from 0: the
increment wraps at `2 ^ 32`. -/
def chunkIndex : Nat → Nat
  | 0 => 0
  | steps + 1 => (chunkIndex steps + 1) % 2 ^ 32

/-! ## Bytes and lanes -/

theorem nat_xor_split (a b x y : Nat) (ha : a < 256) (hb : b < 256) :
    (a + 256 * x) ^^^ (b + 256 * y) = (a ^^^ b) + 256 * (x ^^^ y) := by
  have ha8 : a < 2 ^ 8 := by simpa using ha
  have hb8 : b < 2 ^ 8 := by simpa using hb
  have hab : a ^^^ b < 2 ^ 8 := Nat.xor_lt_two_pow ha8 hb8
  have e1 : a + 256 * x = 2 ^ 8 * x + a := by ring
  have e2 : b + 256 * y = 2 ^ 8 * y + b := by ring
  have e3 : (a ^^^ b) + 256 * (x ^^^ y) = 2 ^ 8 * (x ^^^ y) + (a ^^^ b) := by ring
  rw [e1, e2, e3]
  apply Nat.eq_of_testBit_eq
  intro i
  rw [Nat.testBit_xor, Nat.testBit_mul_pow_two_add x ha8, Nat.testBit_mul_pow_two_add y hb8,
    Nat.testBit_mul_pow_two_add _ hab]
  by_cases h : i < 8 <;> simp [h, Nat.testBit_xor]

theorem loadLE_lt (bs : List Byte) : loadLE bs < 256 ^ bs.length := by
  induction bs with
  | nil => simp [loadLE]
  | cons b bs ih =>
    have hb : b.toNat < 256 := b.isLt
    simp only [loadLE, List.length_cons, pow_succ]
    omega

theorem storeLE_length (n v : Nat) : (storeLE n v).length = n := by
  induction n generalizing v with
  | zero => rfl
  | succ n ih => simp [storeLE, ih]

theorem storeLE_xor_loadLE (as bs : List Byte) (h : as.length = bs.length) :
    storeLE as.length (loadLE as ^^^ loadLE bs) = xorBytes as bs := by
  induction as generalizing bs with
  | nil => simp [storeLE, xorBytes]
  | cons a as ih =>
    cases bs with
    | nil => simp at h
    | cons b bs =>
      have hlen : as.length = bs.length := by simpa using h
      have ha : a.toNat < 256 := a.isLt
      have hb : b.toNat < 256 := b.isLt
      have hab : a.toNat ^^^ b.toNat < 2 ^ 8 :=
        Nat.xor_lt_two_pow (by simpa using ha) (by simpa using hb)
      simp only [loadLE, List.length_cons, storeLE]
      rw [nat_xor_split _ _ _ _ ha hb]
      have hdiv : ((a.toNat ^^^ b.toNat) + 256 * (loadLE as ^^^ loadLE bs)) / 256
          = loadLE as ^^^ loadLE bs := by omega
      have hhead : BitVec.ofNat 8 ((a.toNat ^^^ b.toNat) + 256 * (loadLE as ^^^ loadLE bs))
          = a ^^^ b := by
        apply BitVec.eq_of_toNat_eq
        rw [BitVec.toNat_ofNat, BitVec.toNat_xor]
        omega
      rw [hdiv, hhead, ih bs hlen]
      simp [xorBytes]

theorem xorBytes_length (a b : List Byte) : (xorBytes a b).length = min a.length b.length := by
  simp [xorBytes]

theorem xorBytes_reverse (a b : List Byte) (h : a.length = b.length) :
    (xorBytes a b).reverse = xorBytes a.reverse b.reverse := by
  unfold xorBytes
  exact List.reverse_zipWith h

/-- One lane: reading both lanes as `uint64_t`, XOR-ing and storing back gives
the byte-wise XOR, in either byte order. -/
theorem lane_xor (bigEndian : Bool) (as bs : List Byte) (ha : as.length = 8)
    (hb : bs.length = 8) :
    laneOrder bigEndian
        (storeLE 8 ((loadLE (laneOrder bigEndian as) ^^^ loadLE (laneOrder bigEndian bs)) % 2 ^ 64))
      = xorBytes as bs := by
  have key : ∀ xs ys : List Byte, xs.length = 8 → ys.length = 8 →
      storeLE 8 ((loadLE xs ^^^ loadLE ys) % 2 ^ 64) = xorBytes xs ys := by
    intro xs ys hx hy
    have h1 : loadLE xs < 2 ^ 64 := by
      have := loadLE_lt xs
      rw [hx] at this
      simpa using this
    have h2 : loadLE ys < 2 ^ 64 := by
      have := loadLE_lt ys
      rw [hy] at this
      simpa using this
    rw [Nat.mod_eq_of_lt (Nat.xor_lt_two_pow h1 h2)]
    have := storeLE_xor_loadLE xs ys (by rw [hx, hy])
    rwa [hx] at this
  cases bigEndian with
  | false => simpa [laneOrder] using key as bs ha hb
  | true =>
    simp only [laneOrder, if_true]
    rw [key as.reverse bs.reverse (by simpa using ha) (by simpa using hb),
      ← xorBytes_reverse as bs (by rw [ha, hb]), List.reverse_reverse]

theorem xor_lanes (bigEndian : Bool) (r : List Byte) (n : Nat) (l : List Byte)
    (hlen : l.length = r.length) (hn : 8 * n ≤ l.length) :
    (List.range n).foldl
        (fun mem chunkIndex =>
          writeU64 bigEndian mem chunkIndex
            (readU64 bigEndian mem chunkIndex ^^^ readU64 bigEndian r chunkIndex)) l
      = xorBytes (l.take (8 * n)) (r.take (8 * n)) ++ l.drop (8 * n) := by
  induction n with
  | zero => simp [xorBytes]
  | succ n ih =>
    have hn1 : 8 * n ≤ l.length := by omega
    rw [List.range_succ, List.foldl_append, ih hn1]
    simp only [List.foldl_cons, List.foldl_nil]
    have hX : (xorBytes (l.take (8 * n)) (r.take (8 * n))).length = 8 * n := by
      rw [xorBytes_length, List.length_take, List.length_take]
      omega
    have hA : ((l.drop (8 * n)).take 8).length = 8 := by
      rw [List.length_take, List.length_drop]
      omega
    have hB : ((r.drop (8 * n)).take 8).length = 8 := by
      rw [List.length_take, List.length_drop]
      omega
    have hread : readU64 bigEndian
        (xorBytes (l.take (8 * n)) (r.take (8 * n)) ++ l.drop (8 * n)) n
        = loadLE (laneOrder bigEndian ((l.drop (8 * n)).take 8)) := by
      unfold readU64
      rw [List.drop_left' hX]
    unfold writeU64
    rw [hread, List.take_left' hX]
    unfold readU64
    rw [lane_xor bigEndian _ _ hA hB]
    have hdrop : (xorBytes (l.take (8 * n)) (r.take (8 * n)) ++ l.drop (8 * n)).drop (8 * n + 8)
        = l.drop (8 * (n + 1)) := by
      rw [← List.drop_drop, List.drop_left' hX, List.drop_drop]
      congr 1
    rw [hdrop]
    have e : 8 * (n + 1) = 8 * n + 8 := by ring
    rw [e, List.take_add, List.take_add]
    unfold xorBytes
    rw [List.zipWith_append]
    · rw [List.length_take, List.length_take]
      omega

theorem Buffer_xor_uint64_eq (bigEndian : Bool) (C : Nat) (l r : List Byte) (t1 t2 : Nat)
    (hl : l.length = C) (hr : r.length = C) (h8 : C % 8 = 0) :
    Buffer_xor_uint64 bigEndian { size := C, memory := some l, taken := t1 }
        { size := C, memory := some r, taken := t2 }
      = some { size := C, memory := some (xorBytes l r), taken := t1 } := by
  have hC : 8 * (C / 8) = C := by omega
  unfold Buffer_xor_uint64
  simp only [ne_eq, not_true_eq_false, if_false, h8]
  rw [xor_lanes bigEndian r (C / 8) l (by rw [hl, hr]) (by omega), hC]
  rw [List.take_of_length_le (by omega), List.take_of_length_le (by omega),
    List.drop_of_length_le (by omega), List.append_nil]

/-! ## Runs without I/O errors -/

theorem readFromAll_feeds (C : Nat) (feeds : List Feed) :
    readFromAll (feeds.map (Feed.file C)) = ReadAll.ok (feeds.map (Feed.filled C)) := by
  induction feeds with
  | nil => rfl
  | cons f fs ih =>
    simp only [List.map_cons]
    unfold readFromAll
    rw [ih]
    simp [Feed.file, Feed.filled, Feed.filledMem, Buffer_readFromFile, fread]

theorem Feed.filledMem_length (C : Nat) (f : Feed) (h : f.mem.length = C) :
    (f.filledMem C).length = C := by
  unfold Feed.filledMem
  rw [List.length_append, List.length_take, List.length_drop]
  omega

theorem xorAllInto_filled (bigEndian : Bool) (C : Nat) (h8 : C % 8 = 0) (feeds : List Feed)
    (hmem : ∀ f ∈ feeds, f.mem.length = C) (z : List Byte) (hz : z.length = C) (t : Nat) :
    xorAllInto bigEndian { size := C, memory := some z, taken := t }
        (feeds.map (Feed.filled C))
      = some { size := C, memory := some ((feeds.map (Feed.filledMem C)).foldl xorBytes z)
               taken := t } := by
  induction feeds generalizing z with
  | nil => rfl
  | cons f fs ih =>
    have hf : (f.filledMem C).length = C :=
      Feed.filledMem_length C f (hmem f (List.mem_cons_self _ _))
    simp only [List.map_cons, List.foldl_cons]
    unfold xorAllInto
    have hx := Buffer_xor_uint64_eq bigEndian C z (f.filledMem C) t
      (min C f.data.length) hz hf h8
    simp only [Feed.filled]
    rw [hx]
    simp only
    have hz1 : (xorBytes z (f.filledMem C)).length = C := by
      rw [xorBytes_length, hz, hf, Nat.min_self]
    have := ih (fun g hg => hmem g (List.mem_cons_of_mem _ hg)) (xorBytes z (f.filledMem C)) hz1
    simpa [Feed.filled] using this

theorem take_foldl_xorBytes (k : Nat) (l : List (List Byte)) (z : List Byte) :
    (l.foldl xorBytes z).take k = (l.map (List.take k)).foldl xorBytes (z.take k) := by
  induction l generalizing z with
  | nil => rfl
  | cons a l ih =>
    simp only [List.foldl_cons, List.map_cons]
    rw [ih]
    congr 1
    unfold xorBytes
    exact List.take_zipWith

theorem xorBytes_take_right (K : Nat) (a b : List Byte) (h : a.length ≤ K) :
    xorBytes a (b.take K) = xorBytes a b := by
  induction a generalizing b K with
  | nil => simp [xorBytes]
  | cons x a ih =>
    cases b with
    | nil => simp [xorBytes]
    | cons y b =>
      cases K with
      | zero => simp at h
      | succ K =>
        have h1 : a.length ≤ K := by simpa using h
        have := ih K b h1
        simp only [xorBytes, List.take_succ_cons, List.zipWith_cons_cons] at this ⊢
        rw [this]

theorem foldl_xorBytes_take (K : Nat) (l : List (List Byte)) (z : List Byte)
    (h : z.length ≤ K) :
    (l.map (List.take K)).foldl xorBytes z = l.foldl xorBytes z := by
  induction l generalizing z with
  | nil => rfl
  | cons a l ih =>
    simp only [List.foldl_cons, List.map_cons]
    rw [xorBytes_take_right K z a h]
    apply ih
    rw [xorBytes_length]
    omega

theorem chunk_eq (C T : Nat) (hTC : T ≤ C) (feeds : List Feed)
    (hT : ∀ f ∈ feeds, min C f.data.length = T) (z : List Byte) (hz : z.length = C) :
    ((feeds.map (Feed.filledMem C)).foldl xorBytes
        (List.replicate C 0 ++ z.drop C)).take T
      = xorAll T (feeds.map (fun f => f.data)) := by
  rw [List.drop_of_length_le (by omega), List.append_nil, take_foldl_xorBytes,
    List.take_replicate, Nat.min_eq_left hTC, List.map_map]
  have hmap : feeds.map (List.take T ∘ Feed.filledMem C)
      = (feeds.map (fun f => f.data)).map (List.take T) := by
    rw [List.map_map]
    apply List.map_congr_left
    intro f hf
    have h := hT f hf
    simp only [Function.comp, Feed.filledMem, h]
    rw [List.take_left']
    rw [List.length_take]
    omega
  rw [hmap]
  exact foldl_xorBytes_take T _ _ (by simp)

theorem xorAll_zero (datas : List (List Byte)) : xorAll 0 datas = [] := by
  unfold xorAll
  induction datas with
  | nil => rfl
  | cons a l ih => simpa [xorBytes] using ih

theorem fold_filledMem_length (C : Nat) (feeds : List Feed)
    (hmem : ∀ f ∈ feeds, f.mem.length = C) (z : List Byte) (hz : z.length = C) :
    ((feeds.map (Feed.filledMem C)).foldl xorBytes z).length = C := by
  induction feeds generalizing z with
  | nil => simpa using hz
  | cons f fs ih =>
    simp only [List.map_cons, List.foldl_cons]
    apply ih (fun g hg => hmem g (List.mem_cons_of_mem _ hg))
    rw [xorBytes_length, hz, Feed.filledMem_length C f (hmem f (List.mem_cons_self _ _)),
      Nat.min_self]

theorem fwrite_ideal (bytes w : List Byte) (c : Nat) :
    fwrite (fun _ n => (n, false)) bytes { written := w, error := false, calls := c }
      = (bytes.length,
          { written := w ++ bytes, error := false
            calls := if bytes.length = 0 then c else c + 1 }) := by
  unfold fwrite
  by_cases h : bytes.length = 0
  · have : bytes = [] := List.length_eq_zero.1 h
    subst this
    simp
  · simp [h]

theorem all_eof_filled (C T : Nat) (feeds : List Feed) (hne : feeds ≠ [])
    (hT : ∀ f ∈ feeds, min C f.data.length = T) :
    ((feeds.map (Feed.filled C)).map
        (fun file => ({ file with buffer := Buffer_dump file.buffer } : File))).all
        (fun file => file.handle.eof) = decide (T < C) := by
  obtain ⟨f0, fs, rfl⟩ := List.exists_cons_of_ne_nil hne
  by_cases hlt : T < C
  · rw [decide_eq_true hlt, List.all_eq_true]
    intro x hx
    obtain ⟨y, hy, rfl⟩ := List.mem_map.1 hx
    obtain ⟨f, hf, rfl⟩ := List.mem_map.1 hy
    simp only [Feed.filled, hT f hf]
    exact decide_eq_true hlt
  · rw [decide_eq_false hlt]
    simp only [List.map_cons, List.all_cons, Feed.filled, hT f0 (List.mem_cons_self _ _),
      decide_eq_false hlt, Bool.false_and]

theorem foldl_xorBytes_length (datas : List (List Byte)) (z : List Byte)
    (h : ∀ s ∈ datas, z.length ≤ s.length) :
    (datas.foldl xorBytes z).length = z.length := by
  induction datas generalizing z with
  | nil => rfl
  | cons s l ih =>
    have hs := h s (List.mem_cons_self _ _)
    have hz : (xorBytes z s).length = z.length := by
      rw [xorBytes_length]
      omega
    simp only [List.foldl_cons]
    rw [ih (xorBytes z s) (fun t ht => by rw [hz]; exact h t (List.mem_cons_of_mem _ ht)), hz]

theorem xorAll_length (K : Nat) (datas : List (List Byte)) (h : ∀ s ∈ datas, K ≤ s.length) :
    (xorAll K datas).length = K := by
  unfold xorAll
  rw [foldl_xorBytes_length _ _ (by simpa using h)]
  simp

theorem fwrite_error_of_quiet (respond : Nat → Nat → Nat × Bool)
    (hsink : ∀ k n, (respond k n).2 = false ∧ n ≤ (respond k n).1) (bytes w : List Byte)
    (c : Nat) :
    (fwrite respond bytes { written := w, error := false, calls := c }).2.error = false := by
  unfold fwrite
  by_cases h : bytes.length = 0
  · simp [h]
  · have h1 := (hsink c bytes.length).1
    have h2 := (hsink c bytes.length).2
    simp only [h, if_false, h1, Bool.or_false, Bool.false_or, decide_eq_false_iff_not, not_lt]
    omega

/-- One pass of the loop on inputs that do not fail, in which every input
obtains the same number `T` of bytes, on any sink: the pass ends with code 7
exactly when the error indicator of the sink is set after the write. -/
theorem loopBody_uniform_sink (env : Env) (C T : Nat) (h8 : C % 8 = 0)
    (feeds : List Feed) (hne : feeds ≠ []) (hmem : ∀ f ∈ feeds, f.mem.length = C)
    (hT : ∀ f ∈ feeds, min C f.data.length = T)
    (outMem : List Byte) (hout : outMem.length = C)
    (outTaken : Nat) (written : List Byte) (calls : Nat) (stderr : List Diag) :
    ∃ outMem1 : List Byte, outMem1.length = C ∧
      loopBody env (headState C feeds outMem outTaken written calls stderr)
        = if (fwrite env.respond (xorAll T (feeds.map (fun f => f.data)))
                { written := written, error := false, calls := calls }).2.error = true then
            Step.done 7
              { inputFiles := feeds.map (Feed.filled C)
                outputBuffer := { size := C, memory := some outMem1, taken := T }
                outputFileHandle :=
                  (fwrite env.respond (xorAll T (feeds.map (fun f => f.data)))
                    { written := written, error := false, calls := calls }).2
                stderr := stderr ++ [Diag.writeError] }
          else if T < C then
            Step.done 0
              { inputFiles := feeds.map
                  (fun f => { f.filled C with buffer := Buffer_dump (f.filled C).buffer })
                outputBuffer := { size := C, memory := some outMem1, taken := T }
                outputFileHandle :=
                  (fwrite env.respond (xorAll T (feeds.map (fun f => f.data)))
                    { written := written, error := false, calls := calls }).2
                stderr := stderr }
          else
            Step.next
              { inputFiles := (feeds.map (Feed.advance C)).map (Feed.file C)
                outputBuffer := { size := C, memory := some outMem1, taken := C }
                outputFileHandle :=
                  (fwrite env.respond (xorAll C (feeds.map (fun f => f.data)))
                    { written := written, error := false, calls := calls }).2
                stderr := stderr } := by
  have hTC : T ≤ C := by
    obtain ⟨f0, fs, rfl⟩ := List.exists_cons_of_ne_nil hne
    have := hT f0 (List.mem_cons_self _ _)
    omega
  have hz : (List.replicate C (0 : Byte) ++ outMem.drop C).length = C := by
    rw [List.drop_of_length_le (by omega)]
    simp
  refine ⟨(feeds.map (Feed.filledMem C)).foldl xorBytes
      (List.replicate C 0 ++ outMem.drop C), fold_filledMem_length C _ hmem _ hz, ?_⟩
  have hfind : List.find? (fun file : File => file.buffer.taken != T)
      (feeds.map (Feed.filled C)) = none := by
    rw [List.find?_eq_none]
    intro x hx
    obtain ⟨f, hf, rfl⟩ := List.mem_map.1 hx
    simp [Feed.filled, hT f hf]
  have hxor := xorAllInto_filled env.bigEndian C h8 feeds hmem _ hz T
  have hchunk := chunk_eq C T hTC feeds hT outMem hout
  have hF : ∃ F0 Fs, feeds.map (Feed.filled C) = F0 :: Fs ∧ F0.buffer.taken = T := by
    obtain ⟨f0, fs, rfl⟩ := List.exists_cons_of_ne_nil hne
    exact ⟨f0.filled C, fs.map (Feed.filled C), rfl, hT f0 (List.mem_cons_self _ _)⟩
  obtain ⟨F0, Fs, hF, hF0⟩ := hF
  have hall := all_eof_filled C T feeds hne hT
  unfold loopBody headState
  simp only [readFromAll_feeds]
  rw [hF]
  simp only [hF0]
  rw [← hF, hfind]
  simp only [Buffer_zero, hxor, Buffer_writeToFile, hchunk]
  simp only [hall, decide_eq_true_eq, cleanupAndReturn]
  by_cases herr : (fwrite env.respond (xorAll T (feeds.map (fun f => f.data)))
      { written := written, error := false, calls := calls }).2.error = true
  · simp only [herr, if_true]
  · simp only [herr, if_false]
    by_cases hlt : T < C
    · simp only [hlt, if_true, List.map_map]
      rfl
    · have hTeq : T = C := by omega
      subst hTeq
      simp only [hlt, if_false, List.map_map]
      congr 2
      congr 1
      apply List.map_congr_left
      intro f hf
      have h := hT f hf
      simp [Feed.filled, Feed.file, Feed.advance, Buffer_dump, Feed.filledMem, h]

/-- One pass of the loop, on a sink that accepts every byte without error, in
which every input obtains the same number `T` of bytes. -/
theorem loopBody_uniform_env (env : Env)
    (hsink : ∀ k n, (env.respond k n).2 = false ∧ n ≤ (env.respond k n).1)
    (C T : Nat) (h8 : C % 8 = 0)
    (feeds : List Feed) (hne : feeds ≠ []) (hmem : ∀ f ∈ feeds, f.mem.length = C)
    (hT : ∀ f ∈ feeds, min C f.data.length = T)
    (outMem : List Byte) (hout : outMem.length = C)
    (outTaken : Nat) (written : List Byte) (calls : Nat) (stderr : List Diag) :
    ∃ outMem1 : List Byte, outMem1.length = C ∧
      loopBody env (headState C feeds outMem outTaken written calls stderr)
        = if T < C then
            Step.done 0
              { inputFiles := feeds.map
                  (fun f => { f.filled C with buffer := Buffer_dump (f.filled C).buffer })
                outputBuffer := { size := C, memory := some outMem1, taken := T }
                outputFileHandle :=
                  (fwrite env.respond (xorAll T (feeds.map (fun f => f.data)))
                    { written := written, error := false, calls := calls }).2
                stderr := stderr }
          else
            Step.next
              { inputFiles := (feeds.map (Feed.advance C)).map (Feed.file C)
                outputBuffer := { size := C, memory := some outMem1, taken := C }
                outputFileHandle :=
                  (fwrite env.respond (xorAll C (feeds.map (fun f => f.data)))
                    { written := written, error := false, calls := calls }).2
                stderr := stderr } := by
  obtain ⟨outMem1, hout1, hbody⟩ := loopBody_uniform_sink env C T h8 feeds hne hmem hT outMem
    hout outTaken written calls stderr
  refine ⟨outMem1, hout1, ?_⟩
  rw [hbody, fwrite_error_of_quiet env.respond hsink]
  simp only [Bool.false_eq_true, if_false]

/-- One pass of the loop in a run without failures in which every input
obtains the same number `T` of bytes. -/
theorem loopBody_uniform (bigEndian : Bool) (g : Nat → Byte) (C T : Nat) (hC : 0 < C)
    (h8 : C % 8 = 0)
    (feeds : List Feed) (hne : feeds ≠ []) (hmem : ∀ f ∈ feeds, f.mem.length = C)
    (hT : ∀ f ∈ feeds, min C f.data.length = T)
    (outMem : List Byte) (hout : outMem.length = C)
    (outTaken : Nat) (written : List Byte) (calls : Nat) (stderr : List Diag) :
    ∃ outMem1 : List Byte, outMem1.length = C ∧
      loopBody (idealEnv bigEndian g) (headState C feeds outMem outTaken written calls stderr)
        = if T < C then
            Step.done 0
              { inputFiles := feeds.map
                  (fun f => { f.filled C with buffer := Buffer_dump (f.filled C).buffer })
                outputBuffer := { size := C, memory := some outMem1, taken := T }
                outputFileHandle :=
                  { written := written ++ xorAll T (feeds.map (fun f => f.data))
                    error := false
                    calls := if T = 0 then calls else calls + 1 }
                stderr := stderr }
          else
            Step.next
              (headState C (feeds.map (Feed.advance C)) outMem1 C
                (written ++ xorAll C (feeds.map (fun f => f.data))) (calls + 1) stderr) := by
  have hTC : T ≤ C := by
    obtain ⟨f0, fs, rfl⟩ := List.exists_cons_of_ne_nil hne
    have := hT f0 (List.mem_cons_self _ _)
    omega
  obtain ⟨outMem1, hout1, hbody⟩ := loopBody_uniform_env (idealEnv bigEndian g)
    (fun _ _ => ⟨rfl, le_refl _⟩) C T h8 feeds hne hmem hT outMem hout outTaken written calls
    stderr
  have hlen : (xorAll T (feeds.map (fun f => f.data))).length = T := by
    apply xorAll_length
    intro s hs
    obtain ⟨f, hf, rfl⟩ := List.mem_map.1 hs
    have := hT f hf
    omega
  refine ⟨outMem1, hout1, ?_⟩
  rw [hbody]
  simp only [idealEnv, fwrite_ideal, headState]
  by_cases hlt : T < C
  · simp only [hlt, if_true, hlen]
  · have hTeq : T = C := by omega
    subst hTeq
    have hC0 : T ≠ 0 := by omega
    simp only [hlt, if_false, hlen, hC0]

/-- One pass of the loop in a run without failures in which two inputs obtain
different numbers of bytes: the pass ends with code 6 and writes nothing. -/
theorem loopBody_mismatch (bigEndian : Bool) (g : Nat → Byte) (C : Nat)
    (feeds : List Feed)
    (hmis : ∃ f ∈ feeds, ∃ f1 ∈ feeds, min C f.data.length ≠ min C f1.data.length)
    (outMem : List Byte) (outTaken : Nat) (written : List Byte) (calls : Nat)
    (stderr : List Diag) :
    ∃ d : Diag,
      loopBody (idealEnv bigEndian g) (headState C feeds outMem outTaken written calls stderr)
        = Step.done 6
            { inputFiles := feeds.map (Feed.filled C)
              outputBuffer := { size := C, memory := some outMem, taken := outTaken }
              outputFileHandle := { written := written, error := false, calls := calls }
              stderr := stderr ++ [d] } := by
  obtain ⟨f, hf, f1, hf1, hne⟩ := hmis
  have hnil : feeds ≠ [] := List.ne_nil_of_mem hf
  obtain ⟨f0, fs, rfl⟩ := List.exists_cons_of_ne_nil hnil
  have hsome : ∃ file, List.find? (fun file : File => file.buffer.taken != min C f0.data.length)
      ((f0 :: fs).map (Feed.filled C)) = some file := by
    cases hfind : List.find? (fun file : File => file.buffer.taken != min C f0.data.length)
        ((f0 :: fs).map (Feed.filled C)) with
    | some file => exact ⟨file, rfl⟩
    | none =>
      exfalso
      rw [List.find?_eq_none] at hfind
      have e1 := hfind (f.filled C) (List.mem_map_of_mem _ hf)
      have e2 := hfind (f1.filled C) (List.mem_map_of_mem _ hf1)
      simp only [Feed.filled, bne_iff_ne, ne_eq, not_not] at e1 e2
      exact hne (e1.trans e2.symm)
  obtain ⟨file, hfile⟩ := hsome
  refine ⟨Diag.lengthMismatch file.buffer.taken file.name (min C f0.data.length), ?_⟩
  have hF0 : (Feed.filled C f0).buffer.taken = min C f0.data.length := rfl
  unfold loopBody headState
  simp only [readFromAll_feeds]
  rw [List.map_cons]
  simp only [hF0]
  rw [← List.map_cons, hfile]
  rfl

theorem xorBytes_append (z1 z2 s : List Byte) (h : z1.length ≤ s.length) :
    xorBytes (z1 ++ z2) s = xorBytes z1 s ++ xorBytes z2 (s.drop z1.length) := by
  have hs : s = s.take z1.length ++ s.drop z1.length := (List.take_append_drop _ _).symm
  have hlen : z1.length = (s.take z1.length).length := by
    rw [List.length_take]
    omega
  conv_lhs => rw [hs]
  unfold xorBytes
  rw [List.zipWith_append _ _ _ _ _ hlen]
  congr 1
  exact xorBytes_take_right z1.length z1 s (le_refl _)

theorem foldl_xorBytes_append (a : Nat) (datas : List (List Byte))
    (hlen : ∀ s ∈ datas, a ≤ s.length) (z1 z2 : List Byte) (hz : z1.length = a) :
    datas.foldl xorBytes (z1 ++ z2)
      = datas.foldl xorBytes z1 ++ (datas.map (List.drop a)).foldl xorBytes z2 := by
  induction datas generalizing z1 z2 with
  | nil => rfl
  | cons s l ih =>
    have hs : a ≤ s.length := hlen s (List.mem_cons_self _ _)
    simp only [List.foldl_cons, List.map_cons]
    rw [xorBytes_append z1 z2 s (by omega), hz]
    apply ih (fun t ht => hlen t (List.mem_cons_of_mem _ ht))
    rw [xorBytes_length]
    omega

/-- The XOR over the first `a + b` positions is the XOR over the first `a`
positions followed by the XOR over the next `b`. -/
theorem xorAll_add (a b : Nat) (datas : List (List Byte)) (hlen : ∀ s ∈ datas, a ≤ s.length) :
    xorAll (a + b) datas = xorAll a datas ++ xorAll b (datas.map (List.drop a)) := by
  unfold xorAll
  rw [List.replicate_add]
  exact foldl_xorBytes_append a datas hlen _ _ (by simp)

theorem advance_mem_length (C : Nat) (feeds : List Feed)
    (hmem : ∀ f ∈ feeds, f.mem.length = C) (hlen : ∀ f ∈ feeds, C ≤ f.data.length) :
    ∀ f ∈ feeds.map (Feed.advance C), f.mem.length = C := by
  intro f hf
  obtain ⟨f1, hf1, rfl⟩ := List.mem_map.1 hf
  have h1 := hmem f1 hf1
  have h2 := hlen f1 hf1
  simp only [Feed.advance, List.length_append, List.length_take, List.length_drop]
  omega

theorem advance_datas (C : Nat) (feeds : List Feed) :
    (feeds.map (Feed.advance C)).map (fun f => f.data)
      = (feeds.map (fun f => f.data)).map (List.drop C) := by
  rw [List.map_map, List.map_map]
  rfl

/-- The loop on inputs that all hold `L` unread bytes: it ends with code 0
after `L / C + 1` passes, having written the XOR of the inputs. -/
theorem mainLoop_equal (bigEndian : Bool) (g : Nat → Byte) (C : Nat) (hC : 0 < C)
    (h8 : C % 8 = 0) (fuel : Nat) :
    ∀ (feeds : List Feed) (L : Nat) (outMem : List Byte) (outTaken : Nat)
      (written : List Byte) (calls : Nat) (stderr : List Diag) (k : Nat),
      feeds ≠ [] → (∀ f ∈ feeds, f.mem.length = C) → (∀ f ∈ feeds, f.data.length = L) →
      outMem.length = C → L / C + 1 ≤ fuel →
      mainLoop (idealEnv bigEndian g) fuel k
          (headState C feeds outMem outTaken written calls stderr)
        = { outcome := Outcome.exit 0
            stdout := written ++ xorAll L (feeds.map (fun f => f.data))
            stderr := stderr
            iterations := k + L / C + 1 } := by
  induction fuel with
  | zero => intro _ _ _ _ _ _ _ _ _ _ _ _ hfuel; exact absurd hfuel (Nat.not_succ_le_zero _)
  | succ fuel ih =>
    intro feeds L outMem outTaken written calls stderr k hne hmem hlen hout hfuel
    have hT : ∀ f ∈ feeds, min C f.data.length = min C L := fun f hf => by rw [hlen f hf]
    obtain ⟨outMem1, hout1, hbody⟩ := loopBody_uniform bigEndian g C (min C L) hC h8 feeds hne
      hmem hT outMem hout outTaken written calls stderr
    unfold mainLoop
    rw [hbody]
    by_cases hlt : L < C
    · have hmin : min C L = L := by omega
      have hdiv : L / C = 0 := Nat.div_eq_of_lt hlt
      simp only [hmin, hlt, if_true, hdiv]
    · have hmin : min C L = C := by omega
      have hCL : C ≤ L := by omega
      simp only [hmin, lt_irrefl, if_false]
      have hdiv : L / C = (L - C) / C + 1 := by
        have := Nat.add_div_right (L - C) hC
        rw [Nat.sub_add_cancel hCL] at this
        exact this
      have hge : ∀ f ∈ feeds, C ≤ f.data.length := fun f hf => by rw [hlen f hf]; exact hCL
      have hlen1 : ∀ f ∈ feeds.map (Feed.advance C), f.data.length = L - C := by
        intro f hf
        obtain ⟨f1, hf1, rfl⟩ := List.mem_map.1 hf
        simp [Feed.advance, hlen f1 hf1]
      rw [ih (feeds.map (Feed.advance C)) (L - C) outMem1 C _ (calls + 1) stderr (k + 1)
        (by simpa using hne) (advance_mem_length C feeds hmem hge) hlen1 hout1 (by omega)]
      have hsplit := xorAll_add C (L - C) (feeds.map (fun f => f.data))
        (by
          intro s hs
          obtain ⟨f, hf, rfl⟩ := List.mem_map.1 hs
          exact hge f hf)
      rw [Nat.add_sub_cancel' hCL] at hsplit
      rw [advance_datas, hsplit, List.append_assoc, hdiv]
      congr 1
      omega

/-- The loop on inputs whose numbers of unread bytes are not all equal, the
least being `m`: it ends with code 6 after `m / C + 1` passes, having
written the XOR over the full chunks below `m`. -/
theorem mainLoop_unequal (bigEndian : Bool) (g : Nat → Byte) (C : Nat) (hC : 0 < C)
    (h8 : C % 8 = 0) (fuel : Nat) :
    ∀ (feeds : List Feed) (m : Nat) (outMem : List Byte) (outTaken : Nat)
      (written : List Byte) (calls : Nat) (stderr : List Diag) (k : Nat),
      (∀ f ∈ feeds, f.mem.length = C) → (∀ f ∈ feeds, m ≤ f.data.length) →
      (∃ f ∈ feeds, f.data.length = m) → (∃ f ∈ feeds, f.data.length ≠ m) →
      outMem.length = C → m / C + 1 ≤ fuel →
      ∃ d : Diag,
        mainLoop (idealEnv bigEndian g) fuel k
            (headState C feeds outMem outTaken written calls stderr)
          = { outcome := Outcome.exit 6
              stdout := written ++ xorAll (m / C * C) (feeds.map (fun f => f.data))
              stderr := stderr ++ [d]
              iterations := k + m / C + 1 } := by
  induction fuel with
  | zero => intro _ _ _ _ _ _ _ _ _ _ _ _ _ hfuel; exact absurd hfuel (Nat.not_succ_le_zero _)
  | succ fuel ih =>
    intro feeds m outMem outTaken written calls stderr k hmem hmin hex hne hout hfuel
    obtain ⟨fa, hfa, hfam⟩ := hex
    obtain ⟨fb, hfb, hfbm⟩ := hne
    have hnil : feeds ≠ [] := List.ne_nil_of_mem hfa
    unfold mainLoop
    by_cases hlt : m < C
    · have hmis : ∃ f ∈ feeds, ∃ f1 ∈ feeds, min C f.data.length ≠ min C f1.data.length := by
        refine ⟨fa, hfa, fb, hfb, ?_⟩
        have := hmin fb hfb
        omega
      obtain ⟨d, hbody⟩ := loopBody_mismatch bigEndian g C feeds hmis outMem outTaken written
        calls stderr
      refine ⟨d, ?_⟩
      rw [hbody]
      have hdiv : m / C = 0 := Nat.div_eq_of_lt hlt
      simp only [hdiv, Nat.zero_mul, xorAll_zero, List.append_nil]
    · have hCm : C ≤ m := by omega
      have hge : ∀ f ∈ feeds, C ≤ f.data.length := fun f hf => by
        have := hmin f hf
        omega
      have hT : ∀ f ∈ feeds, min C f.data.length = C := fun f hf => by
        have := hge f hf
        omega
      obtain ⟨outMem1, hout1, hbody⟩ := loopBody_uniform bigEndian g C C hC h8 feeds hnil
        hmem hT outMem hout outTaken written calls stderr
      rw [hbody]
      simp only [lt_irrefl, if_false]
      have hdiv : m / C = (m - C) / C + 1 := by
        have := Nat.add_div_right (m - C) hC
        rw [Nat.sub_add_cancel hCm] at this
        exact this
      have hmin1 : ∀ f ∈ feeds.map (Feed.advance C), m - C ≤ f.data.length := by
        intro f hf
        obtain ⟨f1, hf1, rfl⟩ := List.mem_map.1 hf
        have := hmin f1 hf1
        simp only [Feed.advance, List.length_drop]
        omega
      have hex1 : ∃ f ∈ feeds.map (Feed.advance C), f.data.length = m - C :=
        ⟨fa.advance C, List.mem_map_of_mem _ hfa, by simp [Feed.advance, hfam]⟩
      have hne1 : ∃ f ∈ feeds.map (Feed.advance C), f.data.length ≠ m - C := by
        refine ⟨fb.advance C, List.mem_map_of_mem _ hfb, ?_⟩
        have := hmin fb hfb
        simp only [Feed.advance, List.length_drop]
        omega
      obtain ⟨d, hrest⟩ := ih (feeds.map (Feed.advance C)) (m - C) outMem1 C
        (written ++ xorAll C (feeds.map (fun f => f.data))) (calls + 1) stderr (k + 1)
        (advance_mem_length C feeds hmem hge) hmin1 hex1 hne1 hout1 (by omega)
      refine ⟨d, ?_⟩
      rw [hrest]
      have hsplit := xorAll_add C ((m - C) / C * C) (feeds.map (fun f => f.data))
        (by
          intro s hs
          obtain ⟨f, hf, rfl⟩ := List.mem_map.1 hs
          exact hge f hf)
      have hmul : m / C * C = C + (m - C) / C * C := by
        rw [hdiv]
        ring
      rw [advance_datas, hmul, hsplit, List.append_assoc, hdiv]
      congr 1
      omega

theorem prepareFiles_sources (C : Nat) (srcs : List Source) (i : Nat) :
    prepareFiles C (srcs.map Source.toArg) i
      = Except.ok ((srcs.map (Source.feed C)).map (Feed.file C)) := by
  induction srcs generalizing i with
  | nil => rfl
  | cons s l ih =>
    simp only [List.map_cons]
    unfold prepareFiles
    simp only [Source.toArg, Buffer_new, Option.map_some', Option.isNone_some, Bool.false_eq_true,
      if_false]
    have := ih (i + 1)
    simp only [Source.toArg] at this
    rw [this]
    rfl

/-- With the output buffer and the `File` structures allocated, `main` on
sources that open enters the loop in the head state. -/
theorem main_start (env : Env) (g : Nat → Byte) (hout : env.outputMemory = some g)
    (hcalloc : env.callocOk = true) (C : Nat) (srcs : List Source) (hne : srcs ≠ [])
    (fuel : Nat) :
    main C env (srcs.map Source.toArg) fuel
      = mainLoop env fuel 0
          (headState C (srcs.map (Source.feed C)) ((List.range C).map g) 0 [] 0 []) := by
  have hlen : ¬ (srcs.map Source.toArg).length < 1 := by
    have : 0 < srcs.length := List.length_pos.2 hne
    rw [List.length_map]
    omega
  unfold main
  simp only [Buffer_new, hout, Option.map_some', Option.isNone_some, Bool.false_eq_true,
    if_false, hlen, hcalloc, Bool.not_true, prepareFiles_sources]
  rfl

theorem feed_mem_length (C : Nat) (srcs : List Source) :
    ∀ f ∈ srcs.map (Source.feed C), f.mem.length = C := by
  intro f hf
  obtain ⟨s, _, rfl⟩ := List.mem_map.1 hf
  simp [Source.feed]

theorem feed_datas (C : Nat) (srcs : List Source) :
    (srcs.map (Source.feed C)).map (fun f => f.data) = srcs.map (fun s => s.data) := by
  rw [List.map_map]
  rfl

/-- A run without failures on sources of one length `L`. -/
theorem main_equal (bigEndian : Bool) (g : Nat → Byte) (C : Nat) (hC : 0 < C)
    (h8 : C % 8 = 0) (srcs : List Source) (hne : srcs ≠ []) (L : Nat)
    (hlen : ∀ s ∈ srcs, s.data.length = L) (fuel : Nat) (hfuel : L / C + 1 ≤ fuel) :
    main C (idealEnv bigEndian g) (srcs.map Source.toArg) fuel
      = { outcome := Outcome.exit 0
          stdout := xorAll L (srcs.map (fun s => s.data))
          stderr := []
          iterations := L / C + 1 } := by
  rw [main_start (idealEnv bigEndian g) g rfl rfl C srcs hne fuel,
    mainLoop_equal bigEndian g C hC h8 fuel (srcs.map (Source.feed C)) L _ 0 [] 0 [] 0
      (by simpa using hne) (feed_mem_length C srcs)
      (by
        intro f hf
        obtain ⟨s, hs, rfl⟩ := List.mem_map.1 hf
        exact hlen s hs)
      (by simp) hfuel,
    feed_datas]
  simp

/-- A run without failures on sources whose lengths are not all equal, the
least being `m`. -/
theorem main_unequal (bigEndian : Bool) (g : Nat → Byte) (C : Nat) (hC : 0 < C)
    (h8 : C % 8 = 0) (srcs : List Source) (m : Nat)
    (hmin : ∀ s ∈ srcs, m ≤ s.data.length) (hex : ∃ s ∈ srcs, s.data.length = m)
    (hne : ∃ s ∈ srcs, s.data.length ≠ m) (fuel : Nat) (hfuel : m / C + 1 ≤ fuel) :
    ∃ d : Diag,
      main C (idealEnv bigEndian g) (srcs.map Source.toArg) fuel
        = { outcome := Outcome.exit 6
            stdout := xorAll (m / C * C) (srcs.map (fun s => s.data))
            stderr := [d]
            iterations := m / C + 1 } := by
  obtain ⟨sa, hsa, hsam⟩ := hex
  obtain ⟨sb, hsb, hsbm⟩ := hne
  have hnil : srcs ≠ [] := List.ne_nil_of_mem hsa
  obtain ⟨d, hd⟩ := mainLoop_unequal bigEndian g C hC h8 fuel (srcs.map (Source.feed C)) m
    ((List.range C).map g) 0 [] 0 [] 0 (feed_mem_length C srcs)
    (by
      intro f hf
      obtain ⟨s, hs, rfl⟩ := List.mem_map.1 hf
      exact hmin s hs)
    ⟨sa.feed C, List.mem_map_of_mem _ hsa, hsam⟩
    ⟨sb.feed C, List.mem_map_of_mem _ hsb, hsbm⟩
    (by simp) hfuel
  refine ⟨d, ?_⟩
  rw [main_start (idealEnv bigEndian g) g rfl rfl C srcs hnil fuel, hd, feed_datas]
  simp

theorem xorBytes_getD (a b : List Byte) (i : Nat) (ha : i < a.length) (hb : i < b.length) :
    (xorBytes a b).getD i 0 = a.getD i 0 ^^^ b.getD i 0 := by
  induction a generalizing b i with
  | nil => simp at ha
  | cons x a ih =>
    cases b with
    | nil => simp at hb
    | cons y b =>
      cases i with
      | zero => simp [xorBytes]
      | succ i =>
        have := ih b i (by simpa using ha) (by simpa using hb)
        simpa [xorBytes] using this

theorem foldl_xorBytes_getD (datas : List (List Byte)) (z : List Byte) (i : Nat)
    (hi : i < z.length) (h : ∀ s ∈ datas, z.length ≤ s.length) :
    (datas.foldl xorBytes z).getD i 0
      = datas.foldl (fun acc s => acc ^^^ s.getD i 0) (z.getD i 0) := by
  induction datas generalizing z with
  | nil => rfl
  | cons s l ih =>
    have hs := h s (List.mem_cons_self _ _)
    have hz : (xorBytes z s).length = z.length := by
      rw [xorBytes_length]
      omega
    simp only [List.foldl_cons]
    rw [ih (xorBytes z s) (by omega)
      (fun t ht => by rw [hz]; exact h t (List.mem_cons_of_mem _ ht)),
      xorBytes_getD z s i hi (by omega)]

/-- The XOR of the sequences over the first `K` positions, position by
position. -/
theorem xorAll_eq_columns (K : Nat) (datas : List (List Byte))
    (h : ∀ s ∈ datas, K ≤ s.length) :
    xorAll K datas = (List.range K).map (xorColumn datas) := by
  apply List.ext_getElem
  · rw [xorAll_length K datas h]
    simp
  · intro i h1 h2
    have hi : i < K := by
      rw [xorAll_length K datas h] at h1
      exact h1
    rw [List.getElem_map, List.getElem_range, ← List.getD_eq_getElem _ 0 h1]
    unfold xorAll xorColumn
    rw [foldl_xorBytes_getD datas _ i (by simpa using hi) (by simpa using h)]
    congr 1
    simp [List.getD_eq_getElem?_getD, hi]

theorem xorBytes_zero_left (a : List Byte) :
    xorBytes (List.replicate a.length 0) a = a := by
  induction a with
  | nil => rfl
  | cons x a ih =>
    simp only [xorBytes, List.length_cons, List.replicate_succ, List.zipWith_cons_cons] at ih ⊢
    rw [ih]
    simp

theorem xorBytes_cancel (a b : List Byte) (h : a.length = b.length) :
    xorBytes (xorBytes a b) b = a := by
  induction a generalizing b with
  | nil => simp [xorBytes]
  | cons x a ih =>
    cases b with
    | nil => simp at h
    | cons y b =>
      have := ih b (by simpa using h)
      simp only [xorBytes, List.zipWith_cons_cons] at this ⊢
      rw [this, BitVec.xor_assoc, BitVec.xor_self, BitVec.xor_zero]

theorem xorAll_single (a : List Byte) : xorAll a.length [a] = a :=
  xorBytes_zero_left a

theorem xorAll_pair (a b : List Byte) : xorAll a.length [a, b] = xorBytes a b := by
  show xorBytes (xorBytes (List.replicate a.length 0) a) b = xorBytes a b
  rw [xorBytes_zero_left]

theorem xorBytes_right_comm (a b c : List Byte) :
    xorBytes (xorBytes a b) c = xorBytes (xorBytes a c) b := by
  induction a generalizing b c with
  | nil => simp [xorBytes]
  | cons x a ih =>
    cases b with
    | nil => cases c <;> simp [xorBytes]
    | cons y b =>
      cases c with
      | nil => simp [xorBytes]
      | cons w c =>
        have := ih b c
        simp only [xorBytes, List.zipWith_cons_cons] at this ⊢
        rw [this, BitVec.xor_assoc, BitVec.xor_comm y w, ← BitVec.xor_assoc]

theorem xorAll_perm (K : Nat) (d1 d2 : List (List Byte)) (h : d1.Perm d2) :
    xorAll K d1 = xorAll K d2 := by
  haveI : RightCommutative xorBytes := ⟨xorBytes_right_comm⟩
  exact h.foldl_eq _

theorem exists_min_length (srcs : List Source) (hne : srcs ≠ []) :
    ∃ s ∈ srcs, ∀ t ∈ srcs, s.data.length ≤ t.data.length := by
  induction srcs with
  | nil => exact absurd rfl hne
  | cons a l ih =>
    by_cases hl : l = []
    · subst hl
      exact ⟨a, List.mem_cons_self _ _, by simp⟩
    · obtain ⟨s, hs, hmin⟩ := ih hl
      by_cases hle : a.data.length ≤ s.data.length
      · refine ⟨a, List.mem_cons_self _ _, ?_⟩
        intro t ht
        rcases List.mem_cons.1 ht with rfl | ht
        · exact le_refl _
        · exact le_trans hle (hmin t ht)
      · refine ⟨s, List.mem_cons_of_mem _ hs, ?_⟩
        intro t ht
        rcases List.mem_cons.1 ht with rfl | ht
        · omega
        · exact hmin t ht

theorem div_succ_le_of_lt (L C fuel : Nat) (h : L < fuel) : L / C + 1 ≤ fuel :=
  Nat.succ_le_of_lt (lt_of_le_of_lt (Nat.div_le_self L C) h)

/-! ## The claims -/

/-- C1: end-to-end correctness.  In a run without read or write errors, with
a chunk capacity `C` that is a positive multiple of 8, on `n ≥ 1` sources
that all have length `L`, the program returns with exit status 0 (given
fuel for its `L / C + 1` passes) and the bytes written are the list of
length `L` whose `i`-th byte is the XOR of the `i`-th bytes of all
sources. -/
theorem main_xor_of_equal_length (bigEndian : Bool) (g : Nat → Byte) (C L fuel : Nat)
    (srcs : List Source) (hC : 0 < C) (h8 : C % 8 = 0) (hn : 1 ≤ srcs.length)
    (hlen : ∀ s ∈ srcs, s.data.length = L) (hfuel : L / C + 1 ≤ fuel) :
    (main C (idealEnv bigEndian g) (srcs.map Source.toArg) fuel).outcome = Outcome.exit 0 ∧
    (main C (idealEnv bigEndian g) (srcs.map Source.toArg) fuel).stdout
      = (List.range L).map (xorColumn (srcs.map (fun s => s.data))) := by
  have hne : srcs ≠ [] := by
    intro h
    subst h
    simp at hn
  rw [main_equal bigEndian g C hC h8 srcs hne L hlen fuel hfuel]
  refine ⟨rfl, ?_⟩
  apply xorAll_eq_columns
  intro d hd
  obtain ⟨s, hs, rfl⟩ := List.mem_map.1 hd
  exact le_of_eq (hlen s hs).symm

theorem main_xor_of_equal_length_witness :
    (0 < bufferSize ∧ bufferSize % 8 = 0) ∧
    (main bufferSize (idealEnv false (fun _ => 0))
        ([({ name := "a", data := [1, 2], garbage := fun _ => 7 } : Source),
          { name := "b", data := [4, 8], garbage := fun _ => 9 },
          { name := "c", data := [16, 32], garbage := fun _ => 11 }].map Source.toArg)
        1).outcome = Outcome.exit 0 ∧
    (main bufferSize (idealEnv false (fun _ => 0))
        ([({ name := "a", data := [1, 2], garbage := fun _ => 7 } : Source),
          { name := "b", data := [4, 8], garbage := fun _ => 9 },
          { name := "c", data := [16, 32], garbage := fun _ => 11 }].map Source.toArg)
        1).stdout
      = (List.range 2).map (xorColumn
          (([({ name := "a", data := [1, 2], garbage := fun _ => 7 } : Source),
            { name := "b", data := [4, 8], garbage := fun _ => 9 },
            { name := "c", data := [16, 32], garbage := fun _ => 11 }]).map
              (fun s => s.data))) :=
  ⟨⟨by decide, by decide⟩,
    main_xor_of_equal_length false (fun _ => 0) bufferSize 2 1 _ (by decide) (by decide)
      (by decide) (by simp) (by decide)⟩

/-- C2: equal-length enforcement.  In a run without read or write errors,
with a chunk capacity `C` that is a positive multiple of 8, on sources whose
lengths are not all equal, `m` being the least length, the program returns
with exit status 6 (never 0), and the bytes written are the XOR of all
sources over the first `m / C * C` positions: every full chunk of the earlier
passes and nothing of the pass that detects the mismatch. -/
theorem main_length_mismatch (bigEndian : Bool) (g : Nat → Byte) (C m fuel : Nat)
    (srcs : List Source) (hC : 0 < C) (h8 : C % 8 = 0) (hn : 2 ≤ srcs.length)
    (hmin : ∀ s ∈ srcs, m ≤ s.data.length) (hex : ∃ s ∈ srcs, s.data.length = m)
    (hne : ∃ s ∈ srcs, s.data.length ≠ m) (hfuel : m / C + 1 ≤ fuel) :
    (main C (idealEnv bigEndian g) (srcs.map Source.toArg) fuel).outcome = Outcome.exit 6 ∧
    (main C (idealEnv bigEndian g) (srcs.map Source.toArg) fuel).outcome ≠ Outcome.exit 0 ∧
    (main C (idealEnv bigEndian g) (srcs.map Source.toArg) fuel).stdout
      = (List.range (m / C * C)).map (xorColumn (srcs.map (fun s => s.data))) := by
  have _ := hn
  obtain ⟨d, hd⟩ := main_unequal bigEndian g C hC h8 srcs m hmin hex hne fuel hfuel
  rw [hd]
  refine ⟨rfl, by simp, ?_⟩
  apply xorAll_eq_columns
  intro x hx
  obtain ⟨s, hs, rfl⟩ := List.mem_map.1 hx
  exact le_trans (Nat.div_mul_le_self m C) (hmin s hs)

theorem main_length_mismatch_witness :
    (main 8 (idealEnv false (fun _ => 0))
        ([({ name := "a", data := [1, 2, 3, 4, 5, 6, 7, 8, 9, 10], garbage := fun _ => 7 } :
            Source),
          { name := "b", data := [16, 16, 16, 16, 16, 16, 16, 16, 16], garbage := fun _ => 9 }].map
            Source.toArg)
        2).outcome = Outcome.exit 6 ∧
    (main 8 (idealEnv false (fun _ => 0))
        ([({ name := "a", data := [1, 2, 3, 4, 5, 6, 7, 8, 9, 10], garbage := fun _ => 7 } :
            Source),
          { name := "b", data := [16, 16, 16, 16, 16, 16, 16, 16, 16], garbage := fun _ => 9 }].map
            Source.toArg)
        2).outcome ≠ Outcome.exit 0 ∧
    (main 8 (idealEnv false (fun _ => 0))
        ([({ name := "a", data := [1, 2, 3, 4, 5, 6, 7, 8, 9, 10], garbage := fun _ => 7 } :
            Source),
          { name := "b", data := [16, 16, 16, 16, 16, 16, 16, 16, 16], garbage := fun _ => 9 }].map
            Source.toArg)
        2).stdout
      = (List.range (9 / 8 * 8)).map (xorColumn
          (([({ name := "a", data := [1, 2, 3, 4, 5, 6, 7, 8, 9, 10], garbage := fun _ => 7 } :
              Source),
            { name := "b", data := [16, 16, 16, 16, 16, 16, 16, 16, 16],
              garbage := fun _ => 9 }]).map (fun s => s.data))) :=
  main_length_mismatch false (fun _ => 0) 8 9 2 _ (by decide) (by decide) (by decide)
    (by simp) ⟨_, List.mem_cons_of_mem _ (List.mem_cons_self _ _), rfl⟩
    ⟨_, List.mem_cons_self _ _, by decide⟩ (by decide)

/-- C3: self-inverse.  For two sources `A` and `B` of the same length (any
length, any positive capacity that is a multiple of 8), the run on `[A, B]`
returns with status 0 and writes some `R`, and the run on `[R, B]` returns
with status 0 and writes exactly the bytes of `A`. -/
theorem main_self_inverse (bigEndian bigEndian2 : Bool) (g g2 gR gB : Nat → Byte)
    (nameR : String) (C fuel : Nat) (A B : Source) (hC : 0 < C) (h8 : C % 8 = 0)
    (hAB : A.data.length = B.data.length) (hfuel : A.data.length / C + 1 ≤ fuel) :
    (main C (idealEnv bigEndian g) [A.toArg, B.toArg] fuel).outcome = Outcome.exit 0 ∧
    (main C (idealEnv bigEndian2 g2)
        [Source.toArg
            { name := nameR
              data := (main C (idealEnv bigEndian g) [A.toArg, B.toArg] fuel).stdout
              garbage := gR },
          Source.toArg { name := B.name, data := B.data, garbage := gB }]
        fuel).outcome = Outcome.exit 0 ∧
    (main C (idealEnv bigEndian2 g2)
        [Source.toArg
            { name := nameR
              data := (main C (idealEnv bigEndian g) [A.toArg, B.toArg] fuel).stdout
              garbage := gR },
          Source.toArg { name := B.name, data := B.data, garbage := gB }]
        fuel).stdout = A.data := by
  have h1 := main_equal bigEndian g C hC h8 [A, B] (by simp) A.data.length
    (by
      intro s hs
      rcases List.mem_cons.1 hs with rfl | hs
      · rfl
      · rw [List.mem_singleton.1 hs, hAB])
    fuel hfuel
  simp only [List.map_cons, List.map_nil] at h1
  have hR : (main C (idealEnv bigEndian g) [A.toArg, B.toArg] fuel).stdout
      = xorBytes A.data B.data := by
    rw [h1]
    exact xorAll_pair _ _
  have hRlen : (xorBytes A.data B.data).length = A.data.length := by
    rw [xorBytes_length]
    omega
  have h2 := main_equal bigEndian2 g2 C hC h8
    [{ name := nameR, data := xorBytes A.data B.data, garbage := gR },
      { name := B.name, data := B.data, garbage := gB }] (by simp) A.data.length
    (by
      intro s hs
      rcases List.mem_cons.1 hs with rfl | hs
      · exact hRlen
      · rw [List.mem_singleton.1 hs]
        exact hAB.symm)
    fuel hfuel
  simp only [List.map_cons, List.map_nil] at h2
  rw [hR, h2]
  refine ⟨by rw [h1], rfl, ?_⟩
  show xorAll A.data.length [xorBytes A.data B.data, B.data] = A.data
  rw [← hRlen, xorAll_pair, xorBytes_cancel _ _ hAB]

theorem main_self_inverse_witness :
    (main bufferSize (idealEnv false (fun _ => 0))
        [Source.toArg { name := "a", data := [1, 2, 3, 4, 5, 6, 7, 8, 9], garbage := fun _ => 1 },
          Source.toArg { name := "b", data := [9, 9, 9, 9, 9, 9, 9, 9, 9], garbage := fun _ => 2 }]
        1).outcome = Outcome.exit 0 ∧
    (main bufferSize (idealEnv true (fun _ => 5))
        [Source.toArg
            { name := "r"
              data := (main bufferSize (idealEnv false (fun _ => 0))
                [Source.toArg
                    { name := "a", data := [1, 2, 3, 4, 5, 6, 7, 8, 9], garbage := fun _ => 1 },
                  Source.toArg
                    { name := "b", data := [9, 9, 9, 9, 9, 9, 9, 9, 9], garbage := fun _ => 2 }]
                1).stdout
              garbage := fun _ => 3 },
          Source.toArg
            { name := "b", data := [9, 9, 9, 9, 9, 9, 9, 9, 9], garbage := fun _ => 4 }]
        1).outcome = Outcome.exit 0 ∧
    (main bufferSize (idealEnv true (fun _ => 5))
        [Source.toArg
            { name := "r"
              data := (main bufferSize (idealEnv false (fun _ => 0))
                [Source.toArg
                    { name := "a", data := [1, 2, 3, 4, 5, 6, 7, 8, 9], garbage := fun _ => 1 },
                  Source.toArg
                    { name := "b", data := [9, 9, 9, 9, 9, 9, 9, 9, 9], garbage := fun _ => 2 }]
                1).stdout
              garbage := fun _ => 3 },
          Source.toArg
            { name := "b", data := [9, 9, 9, 9, 9, 9, 9, 9, 9], garbage := fun _ => 4 }]
        1).stdout = [1, 2, 3, 4, 5, 6, 7, 8, 9] :=
  main_self_inverse false true (fun _ => 0) (fun _ => 5) (fun _ => 3) (fun _ => 4) "r"
    bufferSize 1
    { name := "a", data := [1, 2, 3, 4, 5, 6, 7, 8, 9], garbage := fun _ => 1 }
    { name := "b", data := [9, 9, 9, 9, 9, 9, 9, 9, 9], garbage := fun _ => 2 }
    (by decide) (by decide) (by decide) (by decide)

/-- C5: identity for a single source.  In a run without read or write errors,
with a positive capacity that is a multiple of 8, on a single source `A` of
any length, the program returns with exit status 0 and writes exactly the
bytes of `A`. -/
theorem main_single_source (bigEndian : Bool) (g : Nat → Byte) (C fuel : Nat) (A : Source)
    (hC : 0 < C) (h8 : C % 8 = 0) (hfuel : A.data.length / C + 1 ≤ fuel) :
    (main C (idealEnv bigEndian g) [A.toArg] fuel).outcome = Outcome.exit 0 ∧
    (main C (idealEnv bigEndian g) [A.toArg] fuel).stdout = A.data := by
  have h1 := main_equal bigEndian g C hC h8 [A] (by simp) A.data.length
    (by
      intro s hs
      rw [List.mem_singleton.1 hs])
    fuel hfuel
  simp only [List.map_cons, List.map_nil] at h1
  rw [h1]
  exact ⟨rfl, xorAll_single _⟩

theorem main_single_source_witness :
    (main bufferSize (idealEnv false (fun _ => 0))
        [Source.toArg { name := "-", data := [1, 2, 3, 4, 5], garbage := fun _ => 255 }]
        1).outcome = Outcome.exit 0 ∧
    (main bufferSize (idealEnv false (fun _ => 0))
        [Source.toArg { name := "-", data := [1, 2, 3, 4, 5], garbage := fun _ => 255 }]
        1).stdout = [1, 2, 3, 4, 5] :=
  main_single_source false (fun _ => 0) bufferSize 1
    { name := "-", data := [1, 2, 3, 4, 5], garbage := fun _ => 255 }
    (by decide) (by decide) (by decide)

/-- C6: chunk-boundary correctness of the output length.  In a run without
read or write errors, with a positive capacity `C` that is a multiple of 8,
on `n ≥ 1` sources of common length `L`, the program returns with exit
status 0 and writes exactly `L` bytes, whatever `L` is (one chunk, one and a
half chunks, ...); when `L = 0` the output is empty. -/
theorem main_output_length (bigEndian : Bool) (g : Nat → Byte) (C L fuel : Nat)
    (srcs : List Source) (hC : 0 < C) (h8 : C % 8 = 0) (hn : 1 ≤ srcs.length)
    (hlen : ∀ s ∈ srcs, s.data.length = L) (hfuel : L / C + 1 ≤ fuel) :
    (main C (idealEnv bigEndian g) (srcs.map Source.toArg) fuel).outcome = Outcome.exit 0 ∧
    (main C (idealEnv bigEndian g) (srcs.map Source.toArg) fuel).stdout.length = L ∧
    (L = 0 → (main C (idealEnv bigEndian g) (srcs.map Source.toArg) fuel).stdout = []) := by
  have hne : srcs ≠ [] := by
    intro h
    subst h
    simp at hn
  rw [main_equal bigEndian g C hC h8 srcs hne L hlen fuel hfuel]
  have hl : (xorAll L (srcs.map (fun s => s.data))).length = L := by
    apply xorAll_length
    intro d hd
    obtain ⟨s, hs, rfl⟩ := List.mem_map.1 hd
    exact le_of_eq (hlen s hs).symm
  refine ⟨rfl, hl, ?_⟩
  intro h0
  apply List.length_eq_zero.1
  rw [hl, h0]

theorem main_output_length_witness :
    (main 8 (idealEnv false (fun _ => 0))
        ([({ name := "a", data := [1, 2, 3, 4, 5, 6, 7, 8, 9, 10, 11, 12]
             garbage := fun _ => 7 } : Source),
          { name := "b", data := [0, 0, 0, 0, 0, 0, 0, 0, 0, 0, 0, 0]
            garbage := fun _ => 9 }].map Source.toArg)
        2).outcome = Outcome.exit 0 ∧
    (main 8 (idealEnv false (fun _ => 0))
        ([({ name := "a", data := [1, 2, 3, 4, 5, 6, 7, 8, 9, 10, 11, 12]
             garbage := fun _ => 7 } : Source),
          { name := "b", data := [0, 0, 0, 0, 0, 0, 0, 0, 0, 0, 0, 0]
            garbage := fun _ => 9 }].map Source.toArg)
        2).stdout.length = 8 + 8 / 2 ∧
    (8 + 8 / 2 = 0 →
      (main 8 (idealEnv false (fun _ => 0))
        ([({ name := "a", data := [1, 2, 3, 4, 5, 6, 7, 8, 9, 10, 11, 12]
             garbage := fun _ => 7 } : Source),
          { name := "b", data := [0, 0, 0, 0, 0, 0, 0, 0, 0, 0, 0, 0]
            garbage := fun _ => 9 }].map Source.toArg)
        2).stdout = []) :=
  main_output_length false (fun _ => 0) 8 (8 + 8 / 2) 2 _ (by decide) (by decide) (by decide)
    (by simp) (by decide)

/-- C7: the concrete scenario, with the capacity of the program.  The run on
the sources `[0x01,0x02,0x03]` and `[0xFF,0x00,0x0F]` returns with status 0
and writes `[0xFE,0x02,0x0C]`; the run on `[0xFE,0x02,0x0C]` and
`[0xFF,0x00,0x0F]` returns with status 0 and writes `[0x01,0x02,0x03]`. -/
theorem main_concrete_scenario (bigEndian : Bool) (g g1 g2 : Nat → Byte) (n1 n2 : String)
    (fuel : Nat) :
    (main bufferSize (idealEnv bigEndian g)
        [Source.toArg { name := n1, data := [0x01, 0x02, 0x03], garbage := g1 },
          Source.toArg { name := n2, data := [0xFF, 0x00, 0x0F], garbage := g2 }]
        (fuel + 1)).outcome = Outcome.exit 0 ∧
    (main bufferSize (idealEnv bigEndian g)
        [Source.toArg { name := n1, data := [0x01, 0x02, 0x03], garbage := g1 },
          Source.toArg { name := n2, data := [0xFF, 0x00, 0x0F], garbage := g2 }]
        (fuel + 1)).stdout = [0xFE, 0x02, 0x0C] ∧
    (main bufferSize (idealEnv bigEndian g)
        [Source.toArg { name := n1, data := [0xFE, 0x02, 0x0C], garbage := g1 },
          Source.toArg { name := n2, data := [0xFF, 0x00, 0x0F], garbage := g2 }]
        (fuel + 1)).outcome = Outcome.exit 0 ∧
    (main bufferSize (idealEnv bigEndian g)
        [Source.toArg { name := n1, data := [0xFE, 0x02, 0x0C], garbage := g1 },
          Source.toArg { name := n2, data := [0xFF, 0x00, 0x0F], garbage := g2 }]
        (fuel + 1)).stdout = [0x01, 0x02, 0x03] := by
  have hdiv : 3 / bufferSize + 1 ≤ fuel + 1 := by
    have : 3 / bufferSize = 0 := by decide
    omega
  have h1 := main_equal bigEndian g bufferSize (by decide) (by decide)
    [{ name := n1, data := [0x01, 0x02, 0x03], garbage := g1 },
      { name := n2, data := [0xFF, 0x00, 0x0F], garbage := g2 }] (by simp) 3
    (by simp) (fuel + 1) hdiv
  have h2 := main_equal bigEndian g bufferSize (by decide) (by decide)
    [{ name := n1, data := [0xFE, 0x02, 0x0C], garbage := g1 },
      { name := n2, data := [0xFF, 0x00, 0x0F], garbage := g2 }] (by simp) 3
    (by simp) (fuel + 1) hdiv
  simp only [List.map_cons, List.map_nil] at h1 h2
  rw [h1, h2]
  exact ⟨rfl, by decide, rfl, by decide⟩

theorem forall_data_of_perm (srcs1 srcs2 : List Source)
    (h : (srcs1.map (fun s => s.data)).Perm (srcs2.map (fun s => s.data)))
    (P : List Byte → Prop) (hP : ∀ s ∈ srcs1, P s.data) : ∀ s ∈ srcs2, P s.data := by
  intro s hs
  have hmem : s.data ∈ srcs1.map (fun s => s.data) :=
    h.mem_iff.2 (List.mem_map_of_mem (fun s => s.data) hs)
  obtain ⟨t, ht, hts⟩ := List.mem_map.1 hmem
  have := hP t ht
  rw [hts] at this
  exact this

theorem exists_data_of_perm (srcs1 srcs2 : List Source)
    (h : (srcs1.map (fun s => s.data)).Perm (srcs2.map (fun s => s.data)))
    (P : List Byte → Prop) (hP : ∃ s ∈ srcs1, P s.data) : ∃ s ∈ srcs2, P s.data := by
  obtain ⟨s, hs, hPs⟩ := hP
  have hmem : s.data ∈ srcs2.map (fun s => s.data) :=
    h.mem_iff.1 (List.mem_map_of_mem (fun s => s.data) hs)
  obtain ⟨t, ht, hts⟩ := List.mem_map.1 hmem
  exact ⟨t, ht, by rw [hts]; exact hPs⟩

/-- C4, the claim at the empty list of sources: all of its (zero) sources
have equal length, and the run exits with status 1, not 0. -/
theorem main_no_sources_exit_status :
    (∀ s ∈ ([] : List Source), s.data.length = 0) ∧
    (main bufferSize (idealEnv false (fun _ => 0)) (([] : List Source).map Source.toArg)
        1).outcome = Outcome.exit 1 ∧
    (main bufferSize (idealEnv false (fun _ => 0)) (([] : List Source).map Source.toArg)
        1).outcome ≠ Outcome.exit 0 := by
  refine ⟨by simp, rfl, ?_⟩
  rw [show (main bufferSize (idealEnv false (fun _ => 0))
    (([] : List Source).map Source.toArg) 1).outcome = Outcome.exit 1 from rfl]
  decide

/-- C4, amended: order independence.  In runs without read or write errors,
with a positive capacity that is a multiple of 8, for every list of sources
and every list holding the same byte sequences in another order, the two runs
write the same output bytes and return the same status; when the list is not
empty and all sources have equal length, both runs return status 0. -/
theorem main_order_independent (bigEndian : Bool) (g : Nat → Byte) (C fuel : Nat)
    (srcs1 srcs2 : List Source) (hC : 0 < C) (h8 : C % 8 = 0)
    (hperm : (srcs1.map (fun s => s.data)).Perm (srcs2.map (fun s => s.data)))
    (hfuel : ∀ s ∈ srcs1, s.data.length < fuel) :
    (main C (idealEnv bigEndian g) (srcs1.map Source.toArg) fuel).stdout
      = (main C (idealEnv bigEndian g) (srcs2.map Source.toArg) fuel).stdout ∧
    (main C (idealEnv bigEndian g) (srcs1.map Source.toArg) fuel).outcome
      = (main C (idealEnv bigEndian g) (srcs2.map Source.toArg) fuel).outcome ∧
    (srcs1 ≠ [] → ∀ L, (∀ s ∈ srcs1, s.data.length = L) →
      (main C (idealEnv bigEndian g) (srcs1.map Source.toArg) fuel).outcome = Outcome.exit 0 ∧
      (main C (idealEnv bigEndian g) (srcs2.map Source.toArg) fuel).outcome
        = Outcome.exit 0) := by
  by_cases hnil : srcs1 = []
  · subst hnil
    have h2 : srcs2 = [] := by
      have := hperm.length_eq
      simp only [List.map_nil, List.length_nil, List.length_map] at this
      exact List.length_eq_zero.1 this.symm
    subst h2
    exact ⟨rfl, rfl, fun h => absurd rfl h⟩
  · have hnil2 : srcs2 ≠ [] := by
      intro h
      subst h
      have := hperm.length_eq
      simp only [List.map_nil, List.length_nil, List.length_map] at this
      exact hnil (List.length_eq_zero.1 this)
    by_cases hall : ∃ L, ∀ s ∈ srcs1, s.data.length = L
    · obtain ⟨L, hL⟩ := hall
      obtain ⟨s0, hs0, _⟩ := exists_min_length srcs1 hnil
      have hLf : L / C + 1 ≤ fuel := by
        apply div_succ_le_of_lt
        rw [← hL s0 hs0]
        exact hfuel s0 hs0
      have hL2 := forall_data_of_perm srcs1 srcs2 hperm (fun d => d.length = L) hL
      rw [main_equal bigEndian g C hC h8 srcs1 hnil L hL fuel hLf,
        main_equal bigEndian g C hC h8 srcs2 hnil2 L hL2 fuel hLf]
      exact ⟨xorAll_perm L _ _ hperm, rfl, fun _ _ _ => ⟨rfl, rfl⟩⟩
    · obtain ⟨s0, hs0, hmin⟩ := exists_min_length srcs1 hnil
      have hne : ∃ t ∈ srcs1, t.data.length ≠ s0.data.length := by
        by_contra hcon
        apply hall
        refine ⟨s0.data.length, fun s hs => ?_⟩
        by_contra hs1
        exact hcon ⟨s, hs, hs1⟩
      have hmf : s0.data.length / C + 1 ≤ fuel := div_succ_le_of_lt _ _ _ (hfuel s0 hs0)
      obtain ⟨d1, hd1⟩ := main_unequal bigEndian g C hC h8 srcs1 s0.data.length hmin
        ⟨s0, hs0, rfl⟩ hne fuel hmf
      obtain ⟨d2, hd2⟩ := main_unequal bigEndian g C hC h8 srcs2 s0.data.length
        (forall_data_of_perm srcs1 srcs2 hperm (fun d => s0.data.length ≤ d.length) hmin)
        (exists_data_of_perm srcs1 srcs2 hperm (fun d => d.length = s0.data.length)
          ⟨s0, hs0, rfl⟩)
        (exists_data_of_perm srcs1 srcs2 hperm (fun d => d.length ≠ s0.data.length) hne)
        fuel hmf
      rw [hd1, hd2]
      refine ⟨xorAll_perm _ _ _ hperm, rfl, ?_⟩
      intro _ L hL
      exact absurd ⟨L, hL⟩ hall

theorem main_order_independent_witness :
    (main bufferSize (idealEnv false (fun _ => 0))
        ([({ name := "a", data := [1, 2], garbage := fun _ => 7 } : Source),
          { name := "b", data := [4, 8], garbage := fun _ => 9 },
          { name := "c", data := [16, 32], garbage := fun _ => 11 }].map Source.toArg)
        3).stdout
      = (main bufferSize (idealEnv false (fun _ => 0))
        ([({ name := "c", data := [16, 32], garbage := fun _ => 1 } : Source),
          { name := "a", data := [1, 2], garbage := fun _ => 2 },
          { name := "b", data := [4, 8], garbage := fun _ => 3 }].map Source.toArg)
        3).stdout ∧
    (main bufferSize (idealEnv false (fun _ => 0))
        ([({ name := "a", data := [1, 2], garbage := fun _ => 7 } : Source),
          { name := "b", data := [4, 8], garbage := fun _ => 9 },
          { name := "c", data := [16, 32], garbage := fun _ => 11 }].map Source.toArg)
        3).outcome = Outcome.exit 0 ∧
    (main bufferSize (idealEnv false (fun _ => 0))
        ([({ name := "c", data := [16, 32], garbage := fun _ => 1 } : Source),
          { name := "a", data := [1, 2], garbage := fun _ => 2 },
          { name := "b", data := [4, 8], garbage := fun _ => 3 }].map Source.toArg)
        3).outcome = Outcome.exit 0 :=
  let h := main_order_independent false (fun _ => 0) bufferSize 3
    [({ name := "a", data := [1, 2], garbage := fun _ => 7 } : Source),
      { name := "b", data := [4, 8], garbage := fun _ => 9 },
      { name := "c", data := [16, 32], garbage := fun _ => 11 }]
    [({ name := "c", data := [16, 32], garbage := fun _ => 1 } : Source),
      { name := "a", data := [1, 2], garbage := fun _ => 2 },
      { name := "b", data := [4, 8], garbage := fun _ => 3 }]
    (by decide) (by decide) (by decide) (by simp)
  ⟨h.1, h.2.2 (List.cons_ne_nil _ _) 2 (by simp)⟩

theorem readFromAll_fails (files : List File) (k : Nat) (file : File)
    (hk : files[k]? = some file)
    (hbefore : ∀ j < k, ∀ f, files[j]? = some f → f.fillSucceeds = true)
    (hfail : file.fillReportsError = true) :
    ∃ files1, readFromAll files = ReadAll.failed file.name files1 ∧
      files1.drop (k + 1) = files.drop (k + 1) := by
  induction files generalizing k with
  | nil => simp at hk
  | cons f rest ih =>
    cases k with
    | zero =>
      have hf : f = file := by simpa using hk
      subst hf
      unfold File.fillReportsError at hfail
      unfold readFromAll
      cases hr : Buffer_readFromFile f.buffer f.handle with
      | none => simp [hr] at hfail
      | some p =>
        obtain ⟨b, h⟩ := p
        simp only [hr] at hfail
        simp only [hfail, if_true]
        exact ⟨_, rfl, by simp⟩
    | succ k =>
      have h0 := hbefore 0 (Nat.succ_pos k) f (by simp)
      have hk1 : rest[k]? = some file := by simpa using hk
      obtain ⟨rest1, hrest, hdrop⟩ := ih k hk1
        (fun j hj g hg => hbefore (j + 1) (Nat.succ_lt_succ hj) g (by simpa using hg))
      unfold File.fillSucceeds at h0
      unfold readFromAll
      cases hr : Buffer_readFromFile f.buffer f.handle with
      | none => simp [hr] at h0
      | some p =>
        obtain ⟨b, h⟩ := p
        simp only [hr, Bool.not_eq_true'] at h0
        simp only [h0, Bool.false_eq_true, if_false, hrest]
        exact ⟨_, rfl, by simpa using hdrop⟩

/-- C8: a read failure is immediately fatal and names the failing source.  If
in a pass the read of the source at position `k` is the first to leave the
error indicator of its stream set, then the pass ends the program with exit
status 5 and the message naming source `k`; the inputs after position `k`
are left as they were (not read), the output buffer and the sink are
untouched (no length check message, no write), and the output is what was
written in earlier passes. -/
theorem read_failure_fatal (env : Env) (st : State) (k : Nat) (file : File)
    (fuel iterations : Nat)
    (hk : st.inputFiles[k]? = some file)
    (hbefore : ∀ j < k, ∀ f, st.inputFiles[j]? = some f → f.fillSucceeds = true)
    (hfail : file.fillReportsError = true) :
    ∃ st1 : State,
      loopBody env st = Step.done 5 st1 ∧
      st1.inputFiles.drop (k + 1) = st.inputFiles.drop (k + 1) ∧
      st1.outputBuffer = st.outputBuffer ∧
      st1.outputFileHandle = st.outputFileHandle ∧
      st1.stderr = st.stderr ++ [Diag.readError file.name] ∧
      mainLoop env (fuel + 1) iterations st
        = { outcome := Outcome.exit 5
            stdout := st.outputFileHandle.written
            stderr := st.stderr ++ [Diag.readError file.name]
            iterations := iterations + 1 } := by
  obtain ⟨files1, hread, hdrop⟩ := readFromAll_fails st.inputFiles k file hk hbefore hfail
  have hbody : loopBody env st = Step.done 5
      { st with inputFiles := files1, stderr := st.stderr ++ [Diag.readError file.name] } := by
    unfold loopBody
    rw [hread]
    rfl
  refine ⟨_, hbody, hdrop, rfl, rfl, rfl, ?_⟩
  unfold mainLoop
  rw [hbody]

theorem read_failure_fatal_witness :
    ∃ st1 : State,
      loopBody (idealEnv false (fun _ => 0)) readFailureState = Step.done 5 st1 ∧
      st1.inputFiles.drop (1 + 1) = readFailureState.inputFiles.drop (1 + 1) ∧
      st1.outputBuffer = readFailureState.outputBuffer ∧
      st1.outputFileHandle = readFailureState.outputFileHandle ∧
      st1.stderr = readFailureState.stderr ++ [Diag.readError "second"] ∧
      mainLoop (idealEnv false (fun _ => 0)) (0 + 1) 1 readFailureState
        = { outcome := Outcome.exit 5
            stdout := [3, 3]
            stderr := [Diag.readError "second"]
            iterations := 1 + 1 } :=
  read_failure_fatal (idealEnv false (fun _ => 0)) readFailureState 1
    { name := "second"
      handle := { data := [4, 5], failAt := some 0, eof := false, error := false }
      buffer := { size := 8, memory := some [0, 0, 0, 0, 0, 0, 0, 0], taken := 0 } }
    0 1 rfl
    (by
      intro j hj f hf
      have hj0 : j = 0 := by omega
      subst hj0
      have : f = { name := "first"
                   handle := { data := [1, 2], failAt := none, eof := false, error := false }
                   buffer := { size := 8, memory := some [0, 0, 0, 0, 0, 0, 0, 0], taken := 0 } } := by
        simpa [readFailureState] using hf.symm
      subst this
      rfl)
    rfl

/-- C9: the exit codes of the conditions that end `main` before the loop.  A
NULL output buffer gives 4, no input argument gives 1, failed allocation of
the `File` structures gives 1 as well, an argument that cannot be opened
gives 2 and a NULL input buffer gives 3: the second and the third condition
share their code. -/
theorem exit_codes_before_loop (env : Env) (g : Nat → Byte) (C fuel : Nat) (arg : Arg)
    (args : List Arg) (handle : InFile) :
    (main C { env with outputMemory := none } (arg :: args) fuel).outcome = Outcome.exit 4 ∧
    (main C { env with outputMemory := some g } [] fuel).outcome = Outcome.exit 1 ∧
    (main C { env with outputMemory := some g } [] fuel).stderr = [Diag.needInput] ∧
    (main C { env with outputMemory := some g, callocOk := false } (arg :: args) fuel).outcome
      = Outcome.exit 1 ∧
    (main C { env with outputMemory := some g, callocOk := false } (arg :: args) fuel).stderr
      = [Diag.structAlloc (args.length + 1)] ∧
    (main C { env with outputMemory := some g, callocOk := true }
        ({ arg with handle := none } :: args) fuel).outcome = Outcome.exit 2 ∧
    (main C { env with outputMemory := some g, callocOk := true }
        ({ arg with handle := some handle, memory := none } :: args) fuel).outcome
      = Outcome.exit 3 := by
  refine ⟨rfl, rfl, rfl, ?_, ?_, ?_, ?_⟩
  · simp [main, Buffer_new, cleanupAndReturn]
  · simp [main, Buffer_new, cleanupAndReturn]
  · simp [main, Buffer_new, cleanupAndReturn, prepareFiles]
  · simp [main, Buffer_new, cleanupAndReturn, prepareFiles]

theorem mainLoop_done (env : Env) (fuel iterations : Nat) (st st1 : State) (code : Int)
    (h : loopBody env st = Step.done code st1) :
    mainLoop env (fuel + 1) iterations st
      = { outcome := Outcome.exit code, stdout := st1.outputFileHandle.written
          stderr := st1.stderr, iterations := iterations + 1 } := by
  unfold mainLoop
  rw [h]

/-- A short count returned by `fwrite` is fatal.  In a pass that reaches the
write (the inputs do not fail and all obtain the same number `T` of bytes),
if `fwrite` accepts fewer than the `T` bytes requested, the loop ends in that
pass with exit status 7: this is the failure the check under "Check writing"
does catch. -/
theorem short_count_fatal (env : Env) (C T : Nat) (h8 : C % 8 = 0)
    (feeds : List Feed) (hne : feeds ≠ []) (hmem : ∀ f ∈ feeds, f.mem.length = C)
    (hT : ∀ f ∈ feeds, min C f.data.length = T)
    (outMem : List Byte) (hout : outMem.length = C)
    (outTaken : Nat) (written : List Byte) (calls : Nat) (stderr : List Diag)
    (fuel iterations : Nat) (hshort : (env.respond calls T).1 < T) :
    mainLoop env (fuel + 1) iterations (headState C feeds outMem outTaken written calls stderr)
      = { outcome := Outcome.exit 7
          stdout := written ++
            (xorAll T (feeds.map (fun f => f.data))).take (env.respond calls T).1
          stderr := stderr ++ [Diag.writeError]
          iterations := iterations + 1 } := by
  obtain ⟨outMem1, _, hbody⟩ := loopBody_uniform_sink env C T h8 feeds hne hmem hT outMem hout
    outTaken written calls stderr
  have hlen : (xorAll T (feeds.map (fun f => f.data))).length = T := by
    apply xorAll_length
    intro s hs
    obtain ⟨f, hf, rfl⟩ := List.mem_map.1 hs
    have := hT f hf
    omega
  have hT1 : T ≠ 0 := by omega
  have hmin : min T (env.respond calls T).1 = (env.respond calls T).1 := by omega
  have hw : (fwrite env.respond (xorAll T (feeds.map (fun f => f.data)))
      { written := written, error := false, calls := calls }).2
      = { written := written ++
            (xorAll T (feeds.map (fun f => f.data))).take (env.respond calls T).1
          error := true, calls := calls + 1 } := by
    unfold fwrite
    simp only [hlen, hT1, if_false, hmin, hshort, decide_True, Bool.or_true]
  unfold mainLoop
  rw [hbody, hw]
  rfl

/-- A write that sets the error indicator is fatal.  In a pass that reaches
the write (the inputs do not fail and all obtain the same number `T > 0` of
bytes), if the sink answers the write by setting the error indicator of the
stream, whatever count it accepts, the loop ends in that pass with exit
status 7. -/
theorem write_error_fatal (env : Env) (C T : Nat) (h8 : C % 8 = 0)
    (feeds : List Feed) (hne : feeds ≠ []) (hmem : ∀ f ∈ feeds, f.mem.length = C)
    (hT : ∀ f ∈ feeds, min C f.data.length = T)
    (outMem : List Byte) (hout : outMem.length = C)
    (outTaken : Nat) (written : List Byte) (calls : Nat) (stderr : List Diag)
    (fuel iterations : Nat) (hT0 : 0 < T) (hflag : (env.respond calls T).2 = true) :
    mainLoop env (fuel + 1) iterations (headState C feeds outMem outTaken written calls stderr)
      = { outcome := Outcome.exit 7
          stdout := written ++
            (xorAll T (feeds.map (fun f => f.data))).take (min T (env.respond calls T).1)
          stderr := stderr ++ [Diag.writeError]
          iterations := iterations + 1 } := by
  obtain ⟨outMem1, _, hbody⟩ := loopBody_uniform_sink env C T h8 feeds hne hmem hT outMem hout
    outTaken written calls stderr
  have hlen : (xorAll T (feeds.map (fun f => f.data))).length = T := by
    apply xorAll_length
    intro s hs
    obtain ⟨f, hf, rfl⟩ := List.mem_map.1 hs
    have := hT f hf
    omega
  have hw : (fwrite env.respond (xorAll T (feeds.map (fun f => f.data)))
      { written := written, error := false, calls := calls }).2
      = { written := written ++
            (xorAll T (feeds.map (fun f => f.data))).take (min T (env.respond calls T).1)
          error := true, calls := calls + 1 } := by
    unfold fwrite
    have hT1 : T ≠ 0 := by omega
    simp only [hlen, hT1, if_false, hflag, Bool.false_or, Bool.true_or]
  unfold mainLoop
  rw [hbody, hw]
  rfl

theorem write_error_fatal_witness :
    mainLoop failingSinkEnv (0 + 1) 0
        (headState 8 [{ name := "a", data := [1, 2, 3], mem := [0, 0, 0, 0, 0, 0, 0, 0] }]
          [0, 0, 0, 0, 0, 0, 0, 0] 0 [] 0 [])
      = { outcome := Outcome.exit 7
          stdout := [] ++
            (xorAll 3 ([({ name := "a", data := [1, 2, 3], mem := [0, 0, 0, 0, 0, 0, 0, 0] } :
              Feed)].map (fun f => f.data))).take (min 3 (failingSinkEnv.respond 0 3).1)
          stderr := [] ++ [Diag.writeError]
          iterations := 0 + 1 } :=
  write_error_fatal failingSinkEnv 8 3 (by decide)
    [{ name := "a", data := [1, 2, 3], mem := [0, 0, 0, 0, 0, 0, 0, 0] }] (by simp) (by simp)
    (by simp) [0, 0, 0, 0, 0, 0, 0, 0] rfl 0 [] 0 [] 0 0 (by decide) rfl

theorem xor_bytes_loop (r : List Byte) (n : Nat) (l : List Byte)
    (hlen : l.length = r.length) (hn : n ≤ l.length) :
    (List.range n).foldl (fun mem i => mem.set i (mem.getD i 0 ^^^ r.getD i 0)) l
      = xorBytes (l.take n) (r.take n) ++ l.drop n := by
  induction n with
  | zero => simp [xorBytes]
  | succ n ih =>
    have hn1 : n < l.length := by omega
    have hn2 : n < r.length := by omega
    rw [List.range_succ, List.foldl_append, ih (by omega)]
    simp only [List.foldl_cons, List.foldl_nil]
    have hX : (xorBytes (l.take n) (r.take n)).length = n := by
      rw [xorBytes_length, List.length_take, List.length_take]
      omega
    rw [List.getD_append_right _ _ _ _ (by omega), List.set_append_right _ _ (by omega), hX,
      Nat.sub_self, List.drop_eq_getElem_cons hn1, List.set_cons_zero]
    have hl : l.take (n + 1) = l.take n ++ [l[n]] := by
      rw [List.take_succ, List.getElem?_eq_getElem hn1]
      rfl
    have hr : r.take (n + 1) = r.take n ++ [r[n]] := by
      rw [List.take_succ, List.getElem?_eq_getElem hn2]
      rfl
    rw [hl, hr]
    unfold xorBytes
    rw [List.zipWith_append _ _ _ _ _ (by rw [List.length_take, List.length_take]; omega)]
    simp [List.getElem?_eq_getElem hn1, List.getElem?_eq_getElem hn2]

theorem xorBytes_getElem? (a b : List Byte) (i : Nat) (ha : i < a.length)
    (hb : i < b.length) :
    (xorBytes a b)[i]? = some (a.getD i 0 ^^^ b.getD i 0) := by
  have hi : i < (xorBytes a b).length := by
    rw [xorBytes_length]
    omega
  rw [List.getElem?_eq_getElem hi, ← List.getD_eq_getElem _ 0 hi, xorBytes_getD a b i ha hb]

/-- C11: lane-wise XOR equals byte-wise XOR.  For two buffers of equal size, a
multiple of 8, whose storage has that size, `Buffer_xor_uint64` returns `left`
with only its storage changed: the byte at every index below the size (not
only below `taken`) is the old left byte XOR the right byte, which is the
storage the reference with lanes of one byte computes, in either byte
order. -/
theorem Buffer_xor_uint64_bytewise (bigEndian : Bool) (left right : Buffer)
    (l r : List Byte) (hsize : left.size = right.size) (h8 : left.size % 8 = 0)
    (hl : left.memory = some l) (hr : right.memory = some r)
    (hll : l.length = left.size) (hrl : r.length = right.size) :
    ∃ m : List Byte,
      Buffer_xor_uint64 bigEndian left right = some { left with memory := some m } ∧
      m.length = left.size ∧
      (∀ i, i < left.size → m[i]? = some (l.getD i 0 ^^^ r.getD i 0)) ∧
      Buffer_xor_uint64 bigEndian left right = Buffer_xor_uint8 left right := by
  obtain ⟨size, mem, taken⟩ := left
  obtain ⟨size2, mem2, taken2⟩ := right
  simp only at hsize h8 hl hr hll hrl
  subst hsize hl hr
  have h64 := Buffer_xor_uint64_eq bigEndian size l r taken taken2 hll hrl h8
  refine ⟨xorBytes l r, h64, ?_, ?_, ?_⟩
  · rw [xorBytes_length, hll, hrl, Nat.min_self]
  · intro i hi
    simp only at hi
    exact xorBytes_getElem? l r i (by omega) (by omega)
  · rw [h64]
    unfold Buffer_xor_uint8
    simp only [ne_eq, not_true_eq_false, if_false]
    rw [xor_bytes_loop r size l (by rw [hll, hrl]) (by omega),
      List.take_of_length_le (by omega), List.take_of_length_le (by omega),
      List.drop_of_length_le (by omega), List.append_nil]

theorem Buffer_xor_uint64_bytewise_witness :
    ∃ m : List Byte,
      Buffer_xor_uint64 true
          { size := 8, memory := some [1, 2, 3, 4, 5, 6, 7, 8], taken := 3 }
          { size := 8, memory := some [255, 0, 15, 0, 0, 0, 0, 128], taken := 3 }
        = some { ({ size := 8, memory := some [1, 2, 3, 4, 5, 6, 7, 8], taken := 3 } : Buffer)
                 with memory := some m } ∧
      m.length = 8 ∧
      (∀ i, i < 8 →
        m[i]? = some ((([1, 2, 3, 4, 5, 6, 7, 8] : List Byte)).getD i 0
          ^^^ ([255, 0, 15, 0, 0, 0, 0, 128] : List Byte).getD i 0)) ∧
      Buffer_xor_uint64 true
          { size := 8, memory := some [1, 2, 3, 4, 5, 6, 7, 8], taken := 3 }
          { size := 8, memory := some [255, 0, 15, 0, 0, 0, 0, 128], taken := 3 }
        = Buffer_xor_uint8
          { size := 8, memory := some [1, 2, 3, 4, 5, 6, 7, 8], taken := 3 }
          { size := 8, memory := some [255, 0, 15, 0, 0, 0, 0, 128], taken := 3 } :=
  Buffer_xor_uint64_bytewise true
    { size := 8, memory := some [1, 2, 3, 4, 5, 6, 7, 8], taken := 3 }
    { size := 8, memory := some [255, 0, 15, 0, 0, 0, 0, 128], taken := 3 }
    [1, 2, 3, 4, 5, 6, 7, 8] [255, 0, 15, 0, 0, 0, 0, 128] rfl (by decide) rfl rfl rfl rfl

/-- After reads without error, a pass ends with code 6 exactly when two of the
input buffers hold different numbers of bytes. -/
theorem loopBody_mismatch_iff (env : Env) (st : State) (files : List File)
    (hread : readFromAll st.inputFiles = ReadAll.ok files) :
    (∃ st1, loopBody env st = Step.done 6 st1) ↔
      ∃ f ∈ files, ∃ g ∈ files, f.buffer.taken ≠ g.buffer.taken := by
  have hrest : ∀ (correct : Nat) (st1 : State),
      (match Buffer_zero st.outputBuffer with
        | none => Step.crash { st with inputFiles := files }
        | some zeroed =>
          match xorAllInto env.bigEndian { zeroed with taken := correct } files with
          | none => Step.crash { st with inputFiles := files }
          | some out =>
            match Buffer_writeToFile env.respond out st.outputFileHandle with
            | none => Step.crash { st with inputFiles := files, outputBuffer := out }
            | some (_, sink) =>
              if sink.error then
                Step.done (cleanupAndReturn 7)
                  { inputFiles := files, outputBuffer := out, outputFileHandle := sink
                    stderr := st.stderr ++ [Diag.writeError] }
              else
                if (files.map (fun file => { file with buffer := Buffer_dump file.buffer })).all
                    (fun file => file.handle.eof) then
                  Step.done (cleanupAndReturn 0)
                    { inputFiles := files.map
                        (fun file => { file with buffer := Buffer_dump file.buffer })
                      outputBuffer := out, outputFileHandle := sink, stderr := st.stderr }
                else
                  Step.next
                    { inputFiles := files.map
                        (fun file => { file with buffer := Buffer_dump file.buffer })
                      outputBuffer := out, outputFileHandle := sink, stderr := st.stderr })
        ≠ Step.done 6 st1 := by
    intro correct st1 h
    split at h
    · cases h
    · split at h
      · cases h
      · split at h
        · cases h
        · split at h
          · simp [cleanupAndReturn] at h
          · split at h
            · simp [cleanupAndReturn] at h
            · cases h
  cases files with
  | nil =>
    constructor
    · rintro ⟨st1, h⟩
      unfold loopBody at h
      rw [hread] at h
      simp only [List.find?_nil] at h
      exact absurd h (hrest 0 st1)
    · rintro ⟨f, hf, _⟩
      simp at hf
  | cons f0 fs =>
    cases hfind : List.find? (fun file : File => file.buffer.taken != f0.buffer.taken)
        (f0 :: fs) with
    | some file =>
      constructor
      · intro _
        have hp := List.find?_some hfind
        simp only [bne_iff_ne, ne_eq] at hp
        exact ⟨file, List.mem_of_find?_eq_some hfind, f0, List.mem_cons_self _ _, hp⟩
      · intro _
        refine ⟨{ st with
          inputFiles := f0 :: fs
          stderr := st.stderr ++
            [Diag.lengthMismatch file.buffer.taken file.name f0.buffer.taken] }, ?_⟩
        unfold loopBody
        rw [hread]
        simp only [hfind]
        rfl
    | none =>
      have hall : ∀ x ∈ f0 :: fs, x.buffer.taken = f0.buffer.taken := by
        intro x hx
        have := List.find?_eq_none.1 hfind x hx
        simpa using this
      constructor
      · rintro ⟨st1, h⟩
        unfold loopBody at h
        rw [hread] at h
        simp only [hfind] at h
        exact absurd h (hrest f0.buffer.taken st1)
      · rintro ⟨f, hf, g, hg, hne⟩
        exact absurd ((hall f hf).trans (hall g hg).symm) hne

/-- C12: the length check is symmetric.  In a pass whose reads succeed, the
check against the first input buffer passes (the pass does not end with code
6) if and only if all input buffers hold pairwise identical numbers of
bytes; any two buffers that differ, wherever they stand, end the pass with
code 6; and whether a pass ends with code 6 is the same for any other order
of the same numbers of bytes. -/
theorem length_check_symmetric (env env2 : Env) (st st2 : State) (files files2 : List File)
    (hread : readFromAll st.inputFiles = ReadAll.ok files)
    (hread2 : readFromAll st2.inputFiles = ReadAll.ok files2)
    (hperm : (files.map (fun f => f.buffer.taken)).Perm
      (files2.map (fun f => f.buffer.taken))) :
    ((¬ ∃ st1, loopBody env st = Step.done 6 st1) ↔
      ∀ f ∈ files, ∀ g ∈ files, f.buffer.taken = g.buffer.taken) ∧
    (∀ f ∈ files, ∀ g ∈ files, f.buffer.taken ≠ g.buffer.taken →
      ∃ st1, loopBody env st = Step.done 6 st1) ∧
    ((∃ st1, loopBody env st = Step.done 6 st1) ↔
      ∃ st1, loopBody env2 st2 = Step.done 6 st1) := by
  have h1 := loopBody_mismatch_iff env st files hread
  have h2 := loopBody_mismatch_iff env2 st2 files2 hread2
  refine ⟨?_, ?_, ?_⟩
  · rw [h1]
    constructor
    · intro h f hf g hg
      by_contra hne
      exact h ⟨f, hf, g, hg, hne⟩
    · rintro h ⟨f, hf, g, hg, hne⟩
      exact hne (h f hf g hg)
  · intro f hf g hg hne
    exact h1.2 ⟨f, hf, g, hg, hne⟩
  · rw [h1, h2]
    have key : ∀ (a b : List File),
        (a.map (fun f => f.buffer.taken)).Perm (b.map (fun f => f.buffer.taken)) →
        (∃ f ∈ a, ∃ g ∈ a, f.buffer.taken ≠ g.buffer.taken) →
        ∃ f ∈ b, ∃ g ∈ b, f.buffer.taken ≠ g.buffer.taken := by
      rintro a b hp ⟨f, hf, g, hg, hne⟩
      have hf1 : f.buffer.taken ∈ b.map (fun f => f.buffer.taken) :=
        hp.mem_iff.1 (List.mem_map_of_mem (fun f => f.buffer.taken) hf)
      have hg1 : g.buffer.taken ∈ b.map (fun f => f.buffer.taken) :=
        hp.mem_iff.1 (List.mem_map_of_mem (fun f => f.buffer.taken) hg)
      obtain ⟨f2, hf2, ef⟩ := List.mem_map.1 hf1
      obtain ⟨g2, hg2, eg⟩ := List.mem_map.1 hg1
      exact ⟨f2, hf2, g2, hg2, by rw [ef, eg]; exact hne⟩
    exact ⟨key files files2 hperm, key files2 files hperm.symm⟩

theorem length_check_symmetric_witness :
    ((¬ ∃ st1, loopBody (idealEnv false (fun _ => 0)) shortFirstState = Step.done 6 st1) ↔
      ∀ f ∈ filesAfterRead shortFirstState, ∀ g ∈ filesAfterRead shortFirstState,
        f.buffer.taken = g.buffer.taken) ∧
    (∀ f ∈ filesAfterRead shortFirstState, ∀ g ∈ filesAfterRead shortFirstState,
      f.buffer.taken ≠ g.buffer.taken →
      ∃ st1, loopBody (idealEnv false (fun _ => 0)) shortFirstState = Step.done 6 st1) ∧
    ((∃ st1, loopBody (idealEnv false (fun _ => 0)) shortFirstState = Step.done 6 st1) ↔
      ∃ st1, loopBody (idealEnv true (fun _ => 1)) shortLastState = Step.done 6 st1) :=
  length_check_symmetric (idealEnv false (fun _ => 0)) (idealEnv true (fun _ => 1))
    shortFirstState shortLastState (filesAfterRead shortFirstState)
    (filesAfterRead shortLastState) rfl rfl (by decide)

theorem readFromAll_ok_mem (files0 files : List File)
    (h : readFromAll files0 = ReadAll.ok files) :
    ∀ f ∈ files, ∃ f0 ∈ files0,
      Buffer_readFromFile f0.buffer f0.handle = some (f.buffer, f.handle) ∧
      f.handle.error = false := by
  induction files0 generalizing files with
  | nil =>
    unfold readFromAll at h
    cases h
    intro f hf
    simp at hf
  | cons f0 rest ih =>
    unfold readFromAll at h
    cases hr : Buffer_readFromFile f0.buffer f0.handle with
    | none => simp [hr] at h
    | some p =>
      obtain ⟨b, hd⟩ := p
      simp only [hr] at h
      by_cases herr : hd.error = true
      · simp [herr] at h
      · simp only [herr, Bool.false_eq_true, if_false] at h
        cases hrest : readFromAll rest with
        | aborted => simp [hrest] at h
        | failed name rest1 => simp [hrest] at h
        | ok rest1 =>
          simp only [hrest, ReadAll.ok.injEq] at h
          subst h
          intro f hf
          rcases List.mem_cons.1 hf with rfl | hf
          · exact ⟨f0, List.mem_cons_self _ _, hr, by simpa using herr⟩
          · obtain ⟨g, hg, hg1⟩ := ih rest1 hrest f hf
            exact ⟨g, List.mem_cons_of_mem _ hg, hg1⟩

/-- A read that goes through without error on a stream whose end-of-file
indicator was clear sets the indicator exactly when it obtained fewer bytes
than the size of the buffer, and leaves the size as it was. -/
theorem Buffer_readFromFile_eof (b b1 : Buffer) (h h1 : InFile)
    (hr : Buffer_readFromFile b h = some (b1, h1)) (herr : h1.error = false)
    (heof : h.eof = false) :
    h1.eof = decide (b1.taken < b.size) ∧ b1.size = b.size := by
  unfold Buffer_readFromFile at hr
  by_cases ht : b.taken ≠ 0
  · simp [ht] at hr
  · simp only [ht, if_false] at hr
    cases hm : b.memory with
    | none => simp [hm] at hr
    | some mem =>
      simp only [hm, Option.some.injEq, Prod.mk.injEq] at hr
      obtain ⟨hb, hh⟩ := hr
      subst hb hh
      unfold fread at herr ⊢
      split
      · rename_i h0
        simp [h0] at herr
      · simp [heof]

/-- C13: all-or-none end-of-stream.  In a pass entered with every
end-of-file indicator clear and all buffers of size `C`, whose reads succeed,
each source is at end-of-file exactly when its read obtained fewer than `C`
bytes; if the length check passes (the pass does not end with code 6),
either every source is at end-of-file or none is; and a pass in which some
but not all sources are at end-of-file ends with code 6. -/
theorem eof_all_or_none (env : Env) (st : State) (files : List File) (C : Nat)
    (hread : readFromAll st.inputFiles = ReadAll.ok files)
    (hsize : ∀ f ∈ st.inputFiles, f.buffer.size = C)
    (heof : ∀ f ∈ st.inputFiles, f.handle.eof = false) :
    (∀ f ∈ files, f.handle.eof = decide (f.buffer.taken < C)) ∧
    ((¬ ∃ st1, loopBody env st = Step.done 6 st1) →
      (∀ f ∈ files, f.handle.eof = true) ∨ (∀ f ∈ files, f.handle.eof = false)) ∧
    ((∃ f ∈ files, ∃ g ∈ files, f.handle.eof = true ∧ g.handle.eof = false) →
      ∃ st1, loopBody env st = Step.done 6 st1) := by
  have hmodel : ∀ f ∈ files, f.handle.eof = decide (f.buffer.taken < C) := by
    intro f hf
    obtain ⟨f0, hf0, hr, herr⟩ := readFromAll_ok_mem st.inputFiles files hread f hf
    have := (Buffer_readFromFile_eof f0.buffer f.buffer f0.handle f.handle hr herr
      (heof f0 hf0)).1
    rw [hsize f0 hf0] at this
    exact this
  have hiff := loopBody_mismatch_iff env st files hread
  have hmixed : (∃ f ∈ files, ∃ g ∈ files, f.handle.eof = true ∧ g.handle.eof = false) →
      ∃ st1, loopBody env st = Step.done 6 st1 := by
    rintro ⟨f, hf, g, hg, h1, h2⟩
    apply hiff.2
    refine ⟨f, hf, g, hg, ?_⟩
    intro heq
    rw [hmodel f hf, heq, ← hmodel g hg, h2] at h1
    exact Bool.false_ne_true h1
  refine ⟨hmodel, ?_, hmixed⟩
  intro hpass
  by_cases hall : ∀ f ∈ files, f.handle.eof = true
  · exact Or.inl hall
  · right
    intro g hg
    by_contra hgt
    apply hall
    intro f hf
    by_contra hft
    apply hpass
    apply hmixed
    exact ⟨g, hg, f, hf, by simpa using hgt, by simpa using hft⟩

theorem eof_all_or_none_witness :
    (∀ f ∈ filesAfterRead shortLastState, f.handle.eof = decide (f.buffer.taken < 8)) ∧
    ((¬ ∃ st1, loopBody (idealEnv false (fun _ => 0)) shortLastState = Step.done 6 st1) →
      (∀ f ∈ filesAfterRead shortLastState, f.handle.eof = true) ∨
      (∀ f ∈ filesAfterRead shortLastState, f.handle.eof = false)) ∧
    ((∃ f ∈ filesAfterRead shortLastState, ∃ g ∈ filesAfterRead shortLastState,
        f.handle.eof = true ∧ g.handle.eof = false) →
      ∃ st1, loopBody (idealEnv false (fun _ => 0)) shortLastState = Step.done 6 st1) :=
  eof_all_or_none (idealEnv false (fun _ => 0)) shortLastState
    (filesAfterRead shortLastState) 8 rfl (by decide) (by decide)

theorem fwrite_nil (respond : Nat → Nat → Nat × Bool) (handle : OutFile) :
    fwrite respond [] handle = (0, handle) := by
  simp [fwrite]

/-- C14: a zero-length pass is terminal and writes nothing.  With a positive
capacity `C` that is a multiple of 8, on inputs that do not fail and any
sink: a pass in which every input obtains 0 bytes (the reference length is 0
and the length check passes) leaves the sink as it was and ends the loop with
exit status 0; and a pass after which the loop continues has obtained the
full capacity `C` from every input. -/
theorem zero_length_pass_terminal (env : Env) (C : Nat) (hC : 0 < C) (h8 : C % 8 = 0)
    (feeds : List Feed) (hne : feeds ≠ []) (hmem : ∀ f ∈ feeds, f.mem.length = C)
    (outMem : List Byte) (hout : outMem.length = C)
    (outTaken : Nat) (written : List Byte) (calls : Nat) (stderr : List Diag)
    (fuel iterations : Nat) :
    ((∀ f ∈ feeds, (f.filled C).buffer.taken = 0) →
      ∃ st1 : State,
        loopBody env (headState C feeds outMem outTaken written calls stderr)
          = Step.done 0 st1 ∧
        st1.outputFileHandle = { written := written, error := false, calls := calls } ∧
        mainLoop env (fuel + 1) iterations
            (headState C feeds outMem outTaken written calls stderr)
          = { outcome := Outcome.exit 0, stdout := written, stderr := stderr
              iterations := iterations + 1 }) ∧
    (∀ st1 : State,
      loopBody env (headState C feeds outMem outTaken written calls stderr) = Step.next st1 →
      ∀ f ∈ feeds, (f.filled C).buffer.taken = C) := by
  constructor
  · intro hT
    obtain ⟨outMem1, _, hbody⟩ := loopBody_uniform_sink env C 0 h8 feeds hne hmem hT outMem
      hout outTaken written calls stderr
    rw [xorAll_zero, fwrite_nil] at hbody
    simp only [Bool.false_eq_true, if_false, hC, if_true] at hbody
    refine ⟨_, hbody, rfl, ?_⟩
    rw [mainLoop_done env fuel iterations _ _ 0 hbody]
  · intro st1 hnext
    obtain ⟨f0, fs, rfl⟩ := List.exists_cons_of_ne_nil hne
    by_cases huni : ∀ f ∈ f0 :: fs, min C f.data.length = min C f0.data.length
    · obtain ⟨outMem1, _, hbody⟩ := loopBody_uniform_sink env C (min C f0.data.length) h8
        (f0 :: fs) hne hmem huni outMem hout outTaken written calls stderr
      rw [hbody] at hnext
      have hlt : ¬ min C f0.data.length < C := by
        intro hlt
        simp only [hlt, if_true] at hnext
        split at hnext <;> cases hnext
      have hTC : min C f0.data.length = C := by omega
      intro f hf
      show min C f.data.length = C
      rw [huni f hf, hTC]
    · exfalso
      have hread := readFromAll_feeds C (f0 :: fs)
      have hiff := loopBody_mismatch_iff env
        (headState C (f0 :: fs) outMem outTaken written calls stderr)
        ((f0 :: fs).map (Feed.filled C)) hread
      have hex : ∃ f ∈ (f0 :: fs).map (Feed.filled C), ∃ g ∈ (f0 :: fs).map (Feed.filled C),
          f.buffer.taken ≠ g.buffer.taken := by
        by_contra hcon
        apply huni
        intro f hf
        by_contra hne1
        exact hcon ⟨f.filled C, List.mem_map_of_mem _ hf, f0.filled C,
          List.mem_map_of_mem _ (List.mem_cons_self _ _), hne1⟩
      obtain ⟨st2, h6⟩ := hiff.2 hex
      rw [h6] at hnext
      cases hnext

theorem zero_length_pass_terminal_witness :
    ((∀ f ∈ [({ name := "a", data := [], mem := [9, 9, 9, 9, 9, 9, 9, 9] } : Feed),
              { name := "b", data := [], mem := [7, 7, 7, 7, 7, 7, 7, 7] }],
        (f.filled 8).buffer.taken = 0) →
      ∃ st1 : State,
        loopBody failingSinkEnv
            (headState 8 [{ name := "a", data := [], mem := [9, 9, 9, 9, 9, 9, 9, 9] },
              { name := "b", data := [], mem := [7, 7, 7, 7, 7, 7, 7, 7] }]
              [1, 1, 1, 1, 1, 1, 1, 1] 8 [5, 5, 5, 5, 5, 5, 5, 5] 1 [])
          = Step.done 0 st1 ∧
        st1.outputFileHandle
          = { written := [5, 5, 5, 5, 5, 5, 5, 5], error := false, calls := 1 } ∧
        mainLoop failingSinkEnv (0 + 1) 1
            (headState 8 [{ name := "a", data := [], mem := [9, 9, 9, 9, 9, 9, 9, 9] },
              { name := "b", data := [], mem := [7, 7, 7, 7, 7, 7, 7, 7] }]
              [1, 1, 1, 1, 1, 1, 1, 1] 8 [5, 5, 5, 5, 5, 5, 5, 5] 1 [])
          = { outcome := Outcome.exit 0, stdout := [5, 5, 5, 5, 5, 5, 5, 5], stderr := []
              iterations := 1 + 1 }) ∧
    (∀ st1 : State,
      loopBody failingSinkEnv
          (headState 8 [{ name := "a", data := [], mem := [9, 9, 9, 9, 9, 9, 9, 9] },
            { name := "b", data := [], mem := [7, 7, 7, 7, 7, 7, 7, 7] }]
            [1, 1, 1, 1, 1, 1, 1, 1] 8 [5, 5, 5, 5, 5, 5, 5, 5] 1 [])
        = Step.next st1 →
      ∀ f ∈ [({ name := "a", data := [], mem := [9, 9, 9, 9, 9, 9, 9, 9] } : Feed),
              { name := "b", data := [], mem := [7, 7, 7, 7, 7, 7, 7, 7] }],
        (f.filled 8).buffer.taken = 8) :=
  zero_length_pass_terminal failingSinkEnv 8 (by decide) (by decide)
    [{ name := "a", data := [], mem := [9, 9, 9, 9, 9, 9, 9, 9] },
      { name := "b", data := [], mem := [7, 7, 7, 7, 7, 7, 7, 7] }]
    (by simp) (by simp) [1, 1, 1, 1, 1, 1, 1, 1] rfl 8 [5, 5, 5, 5, 5, 5, 5, 5] 1 [] 0 1

/-- One pass of the loop on inputs that do not fail, in which every input
obtains the same number `T` of bytes, on any sink, with the storage of the
output buffer spelled out. -/
theorem loopBody_uniform_explicit (env : Env) (C T : Nat) (h8 : C % 8 = 0)
    (feeds : List Feed) (hne : feeds ≠ []) (hmem : ∀ f ∈ feeds, f.mem.length = C)
    (hT : ∀ f ∈ feeds, min C f.data.length = T)
    (outMem : List Byte) (hout : outMem.length = C)
    (outTaken : Nat) (written : List Byte) (calls : Nat) (stderr : List Diag) :
    (accumulated C feeds outMem).length = C ∧
      loopBody env (headState C feeds outMem outTaken written calls stderr)
        = if (fwrite env.respond (xorAll T (feeds.map (fun f => f.data)))
                { written := written, error := false, calls := calls }).2.error = true then
            Step.done 7
              { inputFiles := feeds.map (Feed.filled C)
                outputBuffer := { size := C, memory := some (accumulated C feeds outMem), taken := T }
                outputFileHandle :=
                  (fwrite env.respond (xorAll T (feeds.map (fun f => f.data)))
                    { written := written, error := false, calls := calls }).2
                stderr := stderr ++ [Diag.writeError] }
          else if T < C then
            Step.done 0
              { inputFiles := feeds.map
                  (fun f => { f.filled C with buffer := Buffer_dump (f.filled C).buffer })
                outputBuffer := { size := C, memory := some (accumulated C feeds outMem), taken := T }
                outputFileHandle :=
                  (fwrite env.respond (xorAll T (feeds.map (fun f => f.data)))
                    { written := written, error := false, calls := calls }).2
                stderr := stderr }
          else
            Step.next
              { inputFiles := (feeds.map (Feed.advance C)).map (Feed.file C)
                outputBuffer := { size := C, memory := some (accumulated C feeds outMem), taken := C }
                outputFileHandle :=
                  (fwrite env.respond (xorAll C (feeds.map (fun f => f.data)))
                    { written := written, error := false, calls := calls }).2
                stderr := stderr } := by
  have hTC : T ≤ C := by
    obtain ⟨f0, fs, rfl⟩ := List.exists_cons_of_ne_nil hne
    have := hT f0 (List.mem_cons_self _ _)
    omega
  have hz : (List.replicate C (0 : Byte) ++ outMem.drop C).length = C := by
    rw [List.drop_of_length_le (by omega)]
    simp
  unfold accumulated
  refine ⟨fold_filledMem_length C _ hmem _ hz, ?_⟩
  have hfind : List.find? (fun file : File => file.buffer.taken != T)
      (feeds.map (Feed.filled C)) = none := by
    rw [List.find?_eq_none]
    intro x hx
    obtain ⟨f, hf, rfl⟩ := List.mem_map.1 hx
    simp [Feed.filled, hT f hf]
  have hxor := xorAllInto_filled env.bigEndian C h8 feeds hmem _ hz T
  have hchunk := chunk_eq C T hTC feeds hT outMem hout
  have hF : ∃ F0 Fs, feeds.map (Feed.filled C) = F0 :: Fs ∧ F0.buffer.taken = T := by
    obtain ⟨f0, fs, rfl⟩ := List.exists_cons_of_ne_nil hne
    exact ⟨f0.filled C, fs.map (Feed.filled C), rfl, hT f0 (List.mem_cons_self _ _)⟩
  obtain ⟨F0, Fs, hF, hF0⟩ := hF
  have hall := all_eof_filled C T feeds hne hT
  unfold loopBody headState
  simp only [readFromAll_feeds]
  rw [hF]
  simp only [hF0]
  rw [← hF, hfind]
  simp only [Buffer_zero, hxor, Buffer_writeToFile, hchunk]
  simp only [hall, decide_eq_true_eq, cleanupAndReturn]
  by_cases herr : (fwrite env.respond (xorAll T (feeds.map (fun f => f.data)))
      { written := written, error := false, calls := calls }).2.error = true
  · simp only [herr, if_true]
  · simp only [herr, if_false]
    by_cases hlt : T < C
    · simp only [hlt, if_true, List.map_map]
      rfl
    · have hTeq : T = C := by omega
      subst hTeq
      simp only [hlt, if_false, List.map_map]
      congr 2
      congr 1
      apply List.map_congr_left
      intro f hf
      have h := hT f hf
      simp [Feed.filled, Feed.file, Feed.advance, Buffer_dump, Feed.filledMem, h]

/-- The buffers at the end of a pass that ends without error, on a sink that
accepts every byte without error: every input buffer has `taken = 0`, the
output buffer keeps `taken = T`. -/
theorem pass_end_taken (env : Env)
    (hsink : ∀ k n, (env.respond k n).2 = false ∧ n ≤ (env.respond k n).1)
    (C T : Nat) (h8 : C % 8 = 0)
    (feeds : List Feed) (hne : feeds ≠ []) (hmem : ∀ f ∈ feeds, f.mem.length = C)
    (hT : ∀ f ∈ feeds, min C f.data.length = T)
    (outMem : List Byte) (hout : outMem.length = C)
    (outTaken : Nat) (written : List Byte) (calls : Nat) (stderr : List Diag) :
    ∃ st1 : State,
      (loopBody env (headState C feeds outMem outTaken written calls stderr)
          = (if T < C then Step.done 0 st1 else Step.next st1)) ∧
      (∀ f ∈ st1.inputFiles, f.buffer.taken = 0) ∧
      st1.outputBuffer.taken = T := by
  have hTC : T ≤ C := by
    obtain ⟨f0, fs, rfl⟩ := List.exists_cons_of_ne_nil hne
    have := hT f0 (List.mem_cons_self _ _)
    omega
  obtain ⟨outMem1, _, hbody⟩ := loopBody_uniform_env env hsink C T h8 feeds hne hmem hT
    outMem hout outTaken written calls stderr
  by_cases hlt : T < C
  · rw [if_pos hlt] at hbody
    refine ⟨_, by rw [if_pos hlt]; exact hbody, ?_, rfl⟩
    intro f hf
    obtain ⟨x, _, rfl⟩ := List.mem_map.1 hf
    rfl
  · rw [if_neg hlt] at hbody
    refine ⟨_, by rw [if_neg hlt]; exact hbody, ?_, by simp only; omega⟩
    intro f hf
    obtain ⟨x, _, rfl⟩ := List.mem_map.1 hf
    rfl

/-- C15, the code at the input of one source holding the three bytes 1, 2, 3
(capacity of the program): the single pass ends without error (code 0); at
its end the input buffer has `taken = 0`, but the output buffer, which the
loop under "Clear all buffers" does not visit, has `taken = 3`. -/
theorem output_buffer_taken_kept :
    main bufferSize (idealEnv false (fun _ => 0))
        [Source.toArg { name := "a", data := [1, 2, 3], garbage := fun _ => 0 }] 1
      = mainLoop (idealEnv false (fun _ => 0)) 1 0
          (headState bufferSize
            [Source.feed bufferSize { name := "a", data := [1, 2, 3], garbage := fun _ => 0 }]
            ((List.range bufferSize).map (fun _ => 0)) 0 [] 0 []) ∧
    ∃ st1 : State,
      loopBody (idealEnv false (fun _ => 0))
          (headState bufferSize
            [Source.feed bufferSize { name := "a", data := [1, 2, 3], garbage := fun _ => 0 }]
            ((List.range bufferSize).map (fun _ => 0)) 0 [] 0 [])
        = Step.done 0 st1 ∧
      (∀ f ∈ st1.inputFiles, f.buffer.taken = 0) ∧
      st1.outputBuffer.taken = 3 ∧
      st1.outputBuffer.taken ≠ 0 := by
  have hlt : 3 < bufferSize := by decide
  refine ⟨main_start (idealEnv false (fun _ => 0)) (fun _ => 0) rfl rfl bufferSize
    [{ name := "a", data := [1, 2, 3], garbage := fun _ => 0 }] (List.cons_ne_nil _ _) 1, ?_⟩
  obtain ⟨st1, hbody, hin, hout⟩ := pass_end_taken (idealEnv false (fun _ => 0))
    (fun _ _ => ⟨rfl, le_refl _⟩) bufferSize 3 (by decide)
    [Source.feed bufferSize { name := "a", data := [1, 2, 3], garbage := fun _ => 0 }]
    (List.cons_ne_nil _ _)
    (feed_mem_length bufferSize [{ name := "a", data := [1, 2, 3], garbage := fun _ => 0 }])
    (by
      intro f hf
      rw [List.mem_singleton.1 hf]
      exact Nat.min_eq_right (Nat.le_of_lt hlt))
    ((List.range bufferSize).map (fun _ => 0))
    (by rw [List.length_map, List.length_range]) 0 [] 0 []
  rw [if_pos hlt] at hbody
  exact ⟨st1, hbody, hin, hout, by rw [hout]; decide⟩

theorem getD_map_range (C : Nat) (g : Nat → Byte) (i : Nat) (hi : i < C) :
    ((List.range C).map g).getD i 0 = g i := by
  rw [List.getD_eq_getElem _ _ (by simpa using hi)]
  simp

theorem Feed.filledMem_getD (C : Nat) (f : Feed) (i : Nat) (hi : min C f.data.length ≤ i) :
    (f.filledMem C).getD i 0 = f.mem.getD i 0 := by
  unfold Feed.filledMem
  have hlen : (f.data.take (min C f.data.length)).length = min C f.data.length := by
    rw [List.length_take]
    omega
  rw [List.getD_append_right _ _ _ _ (by omega), hlen, List.getD_eq_getElem?_getD,
    List.getD_eq_getElem?_getD, List.getElem?_drop]
  congr 3
  omega

theorem xorColumn_filledMem (C T : Nat) (feeds : List Feed)
    (hT : ∀ f ∈ feeds, min C f.data.length = T) (i : Nat) (hi : T ≤ i) (z : Byte) :
    (feeds.map (Feed.filledMem C)).foldl (fun acc s => acc ^^^ s.getD i 0) z
      = (feeds.map (fun f => f.mem)).foldl (fun acc s => acc ^^^ s.getD i 0) z := by
  induction feeds generalizing z with
  | nil => rfl
  | cons f fs ih =>
    simp only [List.map_cons, List.foldl_cons]
    rw [Feed.filledMem_getD C f i (by rw [hT f (List.mem_cons_self _ _)]; exact hi)]
    exact ih (fun g hg => hT g (List.mem_cons_of_mem _ hg)) _

theorem Source.feed_mem_getD (C : Nat) (s : Source) (i : Nat) (hi : i < C) :
    (Source.feed C s).mem.getD i 0 = s.garbage i :=
  getD_map_range C s.garbage i hi

theorem xorColumn_map_single (f : Feed) (i : Nat) :
    xorColumn ([f].map (fun f => f.mem)) i = f.mem.getD i 0 := by
  simp [xorColumn]

/-- What a pass leaves beyond the filled region: each input buffer keeps the
bytes it held before its read, and the output buffer holds their XOR. -/
theorem stale_bytes (env : Env) (C T : Nat) (h8 : C % 8 = 0)
    (feeds : List Feed) (hne : feeds ≠ []) (hmem : ∀ f ∈ feeds, f.mem.length = C)
    (hT : ∀ f ∈ feeds, min C f.data.length = T)
    (outMem : List Byte) (hout : outMem.length = C)
    (outTaken : Nat) (written : List Byte) (calls : Nat) (stderr : List Diag) :
    readFromAll (headState C feeds outMem outTaken written calls stderr).inputFiles
      = ReadAll.ok (feeds.map (Feed.filled C)) ∧
    (∀ f ∈ feeds,
      (f.filled C).buffer.taken = T ∧
      (f.filled C).buffer.memory = some (f.filledMem C) ∧
      ∀ i, T ≤ i → i < C → (f.filledMem C).getD i 0 = f.mem.getD i 0) ∧
    (∃ st1 : State,
      (loopBody env (headState C feeds outMem outTaken written calls stderr) = Step.done 7 st1 ∨
        loopBody env (headState C feeds outMem outTaken written calls stderr)
          = Step.done 0 st1 ∨
        loopBody env (headState C feeds outMem outTaken written calls stderr)
          = Step.next st1) ∧
      st1.outputBuffer.memory = some (accumulated C feeds outMem)) ∧
    (∀ i, T ≤ i → i < C →
      (accumulated C feeds outMem).getD i 0 = xorColumn (feeds.map (fun f => f.mem)) i) := by
  refine ⟨readFromAll_feeds C feeds, ?_, ?_, ?_⟩
  · intro f hf
    refine ⟨hT f hf, rfl, ?_⟩
    intro i hi _
    exact Feed.filledMem_getD C f i (by rw [hT f hf]; exact hi)
  · obtain ⟨_, hbody⟩ := loopBody_uniform_explicit env C T h8 feeds hne hmem hT outMem hout
      outTaken written calls stderr
    by_cases herr : (fwrite env.respond (xorAll T (feeds.map (fun f => f.data)))
        { written := written, error := false, calls := calls }).2.error = true
    · rw [if_pos herr] at hbody
      exact ⟨_, Or.inl hbody, rfl⟩
    · rw [if_neg herr] at hbody
      by_cases hlt : T < C
      · rw [if_pos hlt] at hbody
        exact ⟨_, Or.inr (Or.inl hbody), rfl⟩
      · rw [if_neg hlt] at hbody
        exact ⟨_, Or.inr (Or.inr hbody), rfl⟩
  · intro i hi hiC
    unfold accumulated xorColumn
    have hz : (List.replicate C (0 : Byte) ++ outMem.drop C).length = C := by
      rw [List.drop_of_length_le (by omega)]
      simp
    rw [foldl_xorBytes_getD _ _ i (by omega)
      (by
        intro s hs
        obtain ⟨f, hf, rfl⟩ := List.mem_map.1 hs
        rw [hz, Feed.filledMem_length C f (hmem f hf)]),
      xorColumn_filledMem C T feeds hT i hi]
    congr 1
    rw [List.drop_of_length_le (by omega), List.append_nil, List.getD_eq_getElem _ _
      (by simpa using hiC)]
    simp

/-- C16, the claim at the first pass of the program on one source holding the
bytes 1, 2, 3 whose buffer is allocated holding 0xAA everywhere: when the
input buffer is accumulated it has `taken = 3` and its byte at index 3 is
0xAA, not 0; after the accumulation the byte of the output buffer at index
3, which is not below the reference length 3, is 0xAA, not 0. -/
theorem input_buffer_not_zero_filled :
    readFromAll (headState bufferSize
        [Source.feed bufferSize { name := "a", data := [1, 2, 3], garbage := fun _ => 0xAA }]
        ((List.range bufferSize).map (fun _ => 0)) 0 [] 0 []).inputFiles
      = ReadAll.ok
          [Feed.filled bufferSize
            (Source.feed bufferSize
              { name := "a", data := [1, 2, 3], garbage := fun _ => 0xAA })] ∧
    (Feed.filled bufferSize
      (Source.feed bufferSize
        { name := "a", data := [1, 2, 3], garbage := fun _ => 0xAA })).buffer.taken = 3 ∧
    (Feed.filled bufferSize
      (Source.feed bufferSize
        { name := "a", data := [1, 2, 3], garbage := fun _ => 0xAA })).buffer.memory
      = some (Feed.filledMem bufferSize
          (Source.feed bufferSize
            { name := "a", data := [1, 2, 3], garbage := fun _ => 0xAA })) ∧
    (Feed.filledMem bufferSize
      (Source.feed bufferSize
        { name := "a", data := [1, 2, 3], garbage := fun _ => 0xAA })).getD 3 0 = 0xAA ∧
    (∃ st1 : State,
      loopBody (idealEnv false (fun _ => 0))
          (headState bufferSize
            [Source.feed bufferSize
              { name := "a", data := [1, 2, 3], garbage := fun _ => 0xAA }]
            ((List.range bufferSize).map (fun _ => 0)) 0 [] 0 [])
        = Step.done 0 st1 ∧
      ∃ m : List Byte, st1.outputBuffer.memory = some m ∧ m.getD 3 0 = 0xAA) ∧
    (0xAA : Byte) ≠ 0 := by
  have hlt : 3 < bufferSize := by decide
  have hmin : min bufferSize 3 = 3 := Nat.min_eq_right (Nat.le_of_lt hlt)
  have hT : ∀ f ∈ [Source.feed bufferSize
      { name := "a", data := [1, 2, 3], garbage := fun _ => 0xAA }],
      min bufferSize f.data.length = 3 := by
    intro f hf
    rw [List.mem_singleton.1 hf]
    exact hmin
  have hmem := feed_mem_length bufferSize
    [{ name := "a", data := [1, 2, 3], garbage := fun _ => 0xAA }]
  have hout : ((List.range bufferSize).map (fun _ => (0 : Byte))).length = bufferSize := by
    rw [List.length_map, List.length_range]
  have hstale := stale_bytes (idealEnv false (fun _ => 0)) bufferSize 3 (by decide)
    [Source.feed bufferSize { name := "a", data := [1, 2, 3], garbage := fun _ => 0xAA }]
    (List.cons_ne_nil _ _) hmem hT ((List.range bufferSize).map (fun _ => 0)) hout 0 [] 0 []
  obtain ⟨hread, hin, _, hacc⟩ := hstale
  have hbyte : (Feed.filledMem bufferSize
      (Source.feed bufferSize
        { name := "a", data := [1, 2, 3], garbage := fun _ => 0xAA })).getD 3 0 = 0xAA := by
    rw [(hin _ (List.mem_singleton.2 rfl)).2.2 3 (le_refl _) hlt,
      Source.feed_mem_getD bufferSize _ 3 hlt]
  obtain ⟨_, hbody⟩ := loopBody_uniform_explicit (idealEnv false (fun _ => 0)) bufferSize 3
    (by decide)
    [Source.feed bufferSize { name := "a", data := [1, 2, 3], garbage := fun _ => 0xAA }]
    (List.cons_ne_nil _ _) hmem hT ((List.range bufferSize).map (fun _ => 0)) hout 0 [] 0 []
  rw [fwrite_error_of_quiet (idealEnv false (fun _ => 0)).respond
    (fun _ _ => ⟨rfl, le_refl _⟩)] at hbody
  simp only [Bool.false_eq_true, if_false, hlt, if_true] at hbody
  refine ⟨hread, hmin, rfl, hbyte, ⟨_, hbody, _, rfl, ?_⟩, by decide⟩
  rw [hacc 3 (le_refl _) hlt, xorColumn_map_single, Source.feed_mem_getD bufferSize _ 3 hlt]

/-- C16, amended: input buffers keep their old bytes beyond the filled region.
In a pass on inputs that do not fail and all obtain `T` bytes, at the moment
an input buffer is accumulated every byte of it at an index `i` with
`T ≤ i < C` is the byte the buffer held before its read (the storage of an
input buffer is never zero-filled); after the accumulation every byte of the
output buffer at such an index is the XOR of those bytes of all input
buffers. -/
theorem input_buffers_keep_old_bytes (env : Env) (C T : Nat) (h8 : C % 8 = 0)
    (feeds : List Feed) (hne : feeds ≠ []) (hmem : ∀ f ∈ feeds, f.mem.length = C)
    (hT : ∀ f ∈ feeds, min C f.data.length = T)
    (outMem : List Byte) (hout : outMem.length = C)
    (outTaken : Nat) (written : List Byte) (calls : Nat) (stderr : List Diag) :
    readFromAll (headState C feeds outMem outTaken written calls stderr).inputFiles
      = ReadAll.ok (feeds.map (Feed.filled C)) ∧
    (∀ f ∈ feeds,
      (f.filled C).buffer.taken = T ∧
      (f.filled C).buffer.memory = some (f.filledMem C) ∧
      ∀ i, T ≤ i → i < C → (f.filledMem C).getD i 0 = f.mem.getD i 0) ∧
    (∃ st1 : State,
      (loopBody env (headState C feeds outMem outTaken written calls stderr) = Step.done 7 st1 ∨
        loopBody env (headState C feeds outMem outTaken written calls stderr)
          = Step.done 0 st1 ∨
        loopBody env (headState C feeds outMem outTaken written calls stderr)
          = Step.next st1) ∧
      st1.outputBuffer.memory = some (accumulated C feeds outMem)) ∧
    (∀ i, T ≤ i → i < C →
      (accumulated C feeds outMem).getD i 0 = xorColumn (feeds.map (fun f => f.mem)) i) :=
  stale_bytes env C T h8 feeds hne hmem hT outMem hout outTaken written calls stderr

theorem input_buffers_keep_old_bytes_witness :
    (∀ f ∈ [({ name := "a", data := [1, 2, 3], mem := [9, 9, 9, 9, 9, 9, 9, 9] } : Feed),
              { name := "b", data := [4, 5, 6], mem := [7, 7, 7, 7, 7, 7, 7, 7] }],
      (f.filled 8).buffer.taken = 3 ∧
      (f.filled 8).buffer.memory = some (f.filledMem 8) ∧
      ∀ i, 3 ≤ i → i < 8 → (f.filledMem 8).getD i 0 = f.mem.getD i 0) ∧
    (∀ i, 3 ≤ i → i < 8 →
      (accumulated 8
          [{ name := "a", data := [1, 2, 3], mem := [9, 9, 9, 9, 9, 9, 9, 9] },
            { name := "b", data := [4, 5, 6], mem := [7, 7, 7, 7, 7, 7, 7, 7] }]
          [0, 0, 0, 0, 0, 0, 0, 0]).getD i 0
        = xorColumn
            (([({ name := "a", data := [1, 2, 3], mem := [9, 9, 9, 9, 9, 9, 9, 9] } : Feed),
              { name := "b", data := [4, 5, 6], mem := [7, 7, 7, 7, 7, 7, 7, 7] }]).map
                (fun f => f.mem)) i) :=
  let h := input_buffers_keep_old_bytes (idealEnv false (fun _ => 0)) 8 3 (by decide)
    [{ name := "a", data := [1, 2, 3], mem := [9, 9, 9, 9, 9, 9, 9, 9] },
      { name := "b", data := [4, 5, 6], mem := [7, 7, 7, 7, 7, 7, 7, 7] }]
    (by simp) (by simp) (by simp) [0, 0, 0, 0, 0, 0, 0, 0] rfl 0 [] 0 []
  ⟨h.2.1, h.2.2.2⟩

theorem Buffer_new_inv (C : Nat) (alloc : Option (Nat → Byte)) : (Buffer_new C alloc).inv C := by
  unfold Buffer.inv Buffer_new
  cases alloc <;> simp

theorem Buffer_readFromFile_inv (C : Nat) (b b1 : Buffer) (h h1 : InFile) (hb : b.inv C)
    (hr : Buffer_readFromFile b h = some (b1, h1)) : b1.inv C := by
  obtain ⟨hsize, _, hmem⟩ := hb
  unfold Buffer_readFromFile at hr
  by_cases ht : b.taken ≠ 0
  · simp [ht] at hr
  · simp only [ht, if_false] at hr
    cases hm : b.memory with
    | none => simp [hm] at hr
    | some mem =>
      simp only [hm] at hmem
      simp only [hm, Option.some.injEq, Prod.mk.injEq] at hr
      obtain ⟨hb1, _⟩ := hr
      subst hb1
      unfold Buffer.inv fread
      split
      · simp [hsize, hmem]
      · simp only [List.length_append, List.length_take, List.length_drop]
        refine ⟨hsize, ?_, ?_⟩ <;> omega

theorem Buffer_dump_inv (C : Nat) (b : Buffer) (hb : b.inv C) : (Buffer_dump b).inv C := by
  obtain ⟨hsize, _, hmem⟩ := hb
  exact ⟨hsize, Nat.zero_le _, hmem⟩

theorem Buffer_zero_inv (C : Nat) (b b1 : Buffer) (hb : b.inv C)
    (hz : Buffer_zero b = some b1) : b1.inv C := by
  obtain ⟨hsize, htaken, hmem⟩ := hb
  unfold Buffer_zero at hz
  cases hm : b.memory with
  | none => simp [hm] at hz
  | some mem =>
    simp only [hm] at hmem
    simp only [hm, Option.some.injEq] at hz
    subst hz
    unfold Buffer.inv
    simp only [List.length_append, List.length_replicate, List.length_drop]
    refine ⟨hsize, htaken, ?_⟩
    omega

theorem Buffer_xor_uint64_inv (C : Nat) (bigEndian : Bool) (left right left1 : Buffer)
    (hl : left.inv C) (hr : right.inv C)
    (hx : Buffer_xor_uint64 bigEndian left right = some left1) : left1.inv C := by
  obtain ⟨size, mem, taken⟩ := left
  obtain ⟨size2, mem2, taken2⟩ := right
  obtain ⟨hsize, htaken, hmem⟩ := hl
  obtain ⟨hsize2, _, hmem2⟩ := hr
  simp only at hsize hsize2 htaken hmem hmem2
  subst hsize hsize2
  by_cases h8 : size2 % 8 = 0
  · cases mem with
    | none => simp [Buffer_xor_uint64] at hx
    | some l =>
      cases mem2 with
      | none => simp [Buffer_xor_uint64] at hx
      | some r =>
        simp only at hmem hmem2
        rw [Buffer_xor_uint64_eq bigEndian size2 l r taken taken2 hmem hmem2 h8] at hx
        simp only [Option.some.injEq] at hx
        subst hx
        refine ⟨rfl, htaken, ?_⟩
        simp only [xorBytes_length, hmem, hmem2, Nat.min_self]
  · simp [Buffer_xor_uint64, h8] at hx

/-- C17: the chunk buffer invariant.  The invariant `Buffer.inv C` (size `C`,
`taken ≤ size`, storage of `C` bytes) holds for the buffer returned by
`Buffer_new C` and is preserved by `Buffer_readFromFile`, `Buffer_dump`,
`Buffer_zero`, `Buffer_xor_uint64` (in either byte order) and by the
assignment of the `taken` of an input buffer to the output buffer. -/
theorem buffer_invariant (C : Nat) (bigEndian : Bool) :
    (∀ alloc, (Buffer_new C alloc).inv C) ∧
    (∀ b b1 h h1, b.inv C → Buffer_readFromFile b h = some (b1, h1) → b1.inv C) ∧
    (∀ b, b.inv C → (Buffer_dump b).inv C) ∧
    (∀ b b1, b.inv C → Buffer_zero b = some b1 → b1.inv C) ∧
    (∀ left right left1, left.inv C → right.inv C →
      Buffer_xor_uint64 bigEndian left right = some left1 → left1.inv C) ∧
    (∀ outputBuffer input : Buffer, outputBuffer.inv C → input.inv C →
      ({ outputBuffer with taken := input.taken } : Buffer).inv C) := by
  refine ⟨Buffer_new_inv C, ?_, Buffer_dump_inv C, Buffer_zero_inv C, ?_, ?_⟩
  · intro b b1 h h1 hb hr
    exact Buffer_readFromFile_inv C b b1 h h1 hb hr
  · intro left right left1 hl hr hx
    exact Buffer_xor_uint64_inv C bigEndian left right left1 hl hr hx
  · rintro out inp ⟨hs, _, hm⟩ ⟨hs2, ht2, _⟩
    exact ⟨hs, by simp only; omega, hm⟩

theorem buffer_invariant_witness :
    (Buffer_new 8 (some (fun _ => 5))).inv 8 ∧
    (∀ b1 h1,
      Buffer_readFromFile (Buffer_new 8 (some (fun _ => 5)))
          { data := [1, 2, 3], failAt := none, eof := false, error := false }
        = some (b1, h1) → b1.inv 8) ∧
    (∀ left1,
      Buffer_xor_uint64 false (Buffer_new 8 (some (fun _ => 5)))
          (Buffer_new 8 (some (fun _ => 6))) = some left1 → left1.inv 8) :=
  ⟨(buffer_invariant 8 false).1 _,
    fun b1 h1 => (buffer_invariant 8 false).2.1 _ b1 _ h1 ((buffer_invariant 8 false).1 _),
    fun left1 => (buffer_invariant 8 false).2.2.2.2.1 _ _ left1
      ((buffer_invariant 8 false).1 _) ((buffer_invariant 8 false).1 _)⟩

/-- In runs without read or write errors, the output and the exit status
depend only on the byte sequences of the sources, not on their order, the
byte order of the machine or the initial contents of any buffer. -/
theorem main_result_by_data (bigEndian1 bigEndian2 : Bool) (g1 g2 : Nat → Byte)
    (C fuel : Nat) (srcs1 srcs2 : List Source) (hC : 0 < C) (h8 : C % 8 = 0)
    (hperm : (srcs1.map (fun s => s.data)).Perm (srcs2.map (fun s => s.data)))
    (hfuel : ∀ s ∈ srcs1, s.data.length < fuel) :
    (main C (idealEnv bigEndian1 g1) (srcs1.map Source.toArg) fuel).stdout
      = (main C (idealEnv bigEndian2 g2) (srcs2.map Source.toArg) fuel).stdout ∧
    (main C (idealEnv bigEndian1 g1) (srcs1.map Source.toArg) fuel).outcome
      = (main C (idealEnv bigEndian2 g2) (srcs2.map Source.toArg) fuel).outcome := by
  by_cases hnil : srcs1 = []
  · subst hnil
    have h2 : srcs2 = [] := by
      have := hperm.length_eq
      simp only [List.map_nil, List.length_nil, List.length_map] at this
      exact List.length_eq_zero.1 this.symm
    subst h2
    exact ⟨rfl, rfl⟩
  · have hnil2 : srcs2 ≠ [] := by
      intro h
      subst h
      have := hperm.length_eq
      simp only [List.map_nil, List.length_nil, List.length_map] at this
      exact hnil (List.length_eq_zero.1 this)
    by_cases hall : ∃ L, ∀ s ∈ srcs1, s.data.length = L
    · obtain ⟨L, hL⟩ := hall
      obtain ⟨s0, hs0, _⟩ := exists_min_length srcs1 hnil
      have hLf : L / C + 1 ≤ fuel := by
        apply div_succ_le_of_lt
        rw [← hL s0 hs0]
        exact hfuel s0 hs0
      have hL2 := forall_data_of_perm srcs1 srcs2 hperm (fun d => d.length = L) hL
      rw [main_equal bigEndian1 g1 C hC h8 srcs1 hnil L hL fuel hLf,
        main_equal bigEndian2 g2 C hC h8 srcs2 hnil2 L hL2 fuel hLf]
      exact ⟨xorAll_perm L _ _ hperm, rfl⟩
    · obtain ⟨s0, hs0, hmin⟩ := exists_min_length srcs1 hnil
      have hne : ∃ t ∈ srcs1, t.data.length ≠ s0.data.length := by
        by_contra hcon
        apply hall
        refine ⟨s0.data.length, fun s hs => ?_⟩
        by_contra hs1
        exact hcon ⟨s, hs, hs1⟩
      have hmf : s0.data.length / C + 1 ≤ fuel := div_succ_le_of_lt _ _ _ (hfuel s0 hs0)
      obtain ⟨d1, hd1⟩ := main_unequal bigEndian1 g1 C hC h8 srcs1 s0.data.length hmin
        ⟨s0, hs0, rfl⟩ hne fuel hmf
      obtain ⟨d2, hd2⟩ := main_unequal bigEndian2 g2 C hC h8 srcs2 s0.data.length
        (forall_data_of_perm srcs1 srcs2 hperm (fun d => s0.data.length ≤ d.length) hmin)
        (exists_data_of_perm srcs1 srcs2 hperm (fun d => d.length = s0.data.length)
          ⟨s0, hs0, rfl⟩)
        (exists_data_of_perm srcs1 srcs2 hperm (fun d => d.length ≠ s0.data.length) hne)
        fuel hmf
      rw [hd1, hd2]
      exact ⟨xorAll_perm _ _ _ hperm, rfl⟩

/-- C18: the output does not depend on stale or uninitialised buffer contents.
In runs without read or write errors, with a positive capacity that is a
multiple of 8, two runs on the same byte sequences that differ in the initial
contents of the input buffers and of the output buffer write the same bytes
and return the same status.  Within a pass in which every input obtains `T`
bytes, the first `T` bytes of the accumulated output buffer are the XOR of
the bytes read, whatever the buffers held before, and `Buffer_writeToFile`
writes those `T` bytes only. -/
theorem output_independent_of_garbage (bigEndian : Bool) (g1 g2 : Nat → Byte)
    (C fuel : Nat) (srcs1 srcs2 : List Source) (hC : 0 < C) (h8 : C % 8 = 0)
    (hdata : srcs1.map (fun s => s.data) = srcs2.map (fun s => s.data))
    (hfuel : ∀ s ∈ srcs1, s.data.length < fuel) :
    (main C (idealEnv bigEndian g1) (srcs1.map Source.toArg) fuel).stdout
      = (main C (idealEnv bigEndian g2) (srcs2.map Source.toArg) fuel).stdout ∧
    (main C (idealEnv bigEndian g1) (srcs1.map Source.toArg) fuel).outcome
      = (main C (idealEnv bigEndian g2) (srcs2.map Source.toArg) fuel).outcome ∧
    (∀ (feeds : List Feed) (outMem : List Byte) (T : Nat), feeds ≠ [] →
      (∀ f ∈ feeds, f.mem.length = C) → (∀ f ∈ feeds, min C f.data.length = T) →
      outMem.length = C →
      (accumulated C feeds outMem).take T = xorAll T (feeds.map (fun f => f.data)) ∧
      ∀ (respond : Nat → Nat → Nat × Bool) (handle : OutFile),
        Buffer_writeToFile respond
            { size := C, memory := some (accumulated C feeds outMem), taken := T } handle
          = some (fwrite respond (xorAll T (feeds.map (fun f => f.data))) handle)) := by
  have hperm : (srcs1.map (fun s => s.data)).Perm (srcs2.map (fun s => s.data)) := by
    rw [hdata]
  obtain ⟨h1, h2⟩ := main_result_by_data bigEndian bigEndian g1 g2 C fuel srcs1 srcs2 hC h8
    hperm hfuel
  refine ⟨h1, h2, ?_⟩
  intro feeds outMem T hne _ hT hout
  have hTC : T ≤ C := by
    obtain ⟨f0, fs, rfl⟩ := List.exists_cons_of_ne_nil hne
    have := hT f0 (List.mem_cons_self _ _)
    omega
  have hchunk : (accumulated C feeds outMem).take T = xorAll T (feeds.map (fun f => f.data)) :=
    chunk_eq C T hTC feeds hT outMem hout
  refine ⟨hchunk, ?_⟩
  intro respond handle
  unfold Buffer_writeToFile
  simp only [hchunk]

theorem output_independent_of_garbage_witness :
    (main bufferSize (idealEnv false (fun _ => 0))
        ([({ name := "a", data := [1, 2, 3], garbage := fun _ => 0 } : Source),
          { name := "b", data := [4, 5, 6], garbage := fun _ => 0 }].map Source.toArg)
        4).stdout
      = (main bufferSize (idealEnv false (fun _ => 255))
        ([({ name := "a", data := [1, 2, 3], garbage := fun i => BitVec.ofNat 8 i } : Source),
          { name := "b", data := [4, 5, 6], garbage := fun _ => 0xAA }].map Source.toArg)
        4).stdout ∧
    (main bufferSize (idealEnv false (fun _ => 0))
        ([({ name := "a", data := [1, 2, 3], garbage := fun _ => 0 } : Source),
          { name := "b", data := [4, 5, 6], garbage := fun _ => 0 }].map Source.toArg)
        4).outcome
      = (main bufferSize (idealEnv false (fun _ => 255))
        ([({ name := "a", data := [1, 2, 3], garbage := fun i => BitVec.ofNat 8 i } : Source),
          { name := "b", data := [4, 5, 6], garbage := fun _ => 0xAA }].map Source.toArg)
        4).outcome :=
  let h := output_independent_of_garbage false (fun _ => 0) (fun _ => 255) bufferSize 4
    [({ name := "a", data := [1, 2, 3], garbage := fun _ => 0 } : Source),
      { name := "b", data := [4, 5, 6], garbage := fun _ => 0 }]
    [({ name := "a", data := [1, 2, 3], garbage := fun i => BitVec.ofNat 8 i } : Source),
      { name := "b", data := [4, 5, 6], garbage := fun _ => 0xAA }]
    (by decide) (by decide) rfl (by simp)
  ⟨h.1, h.2.1⟩

theorem Buffer_readFromFile_live (C : Nat) (b : Buffer) (h : InFile) (hb : b.live C)
    (ht : b.taken = 0) :
    ∃ b1 h1, Buffer_readFromFile b h = some (b1, h1) ∧ b1.live C := by
  obtain ⟨hsize, hmem⟩ := hb
  cases hm : b.memory with
  | none => simp [hm] at hmem
  | some mem =>
    unfold Buffer_readFromFile
    simp only [ht, ne_eq, not_true_eq_false, if_false, hm]
    exact ⟨_, _, rfl, hsize, rfl⟩

theorem readFromAll_live (C : Nat) (files : List File)
    (h : ∀ f ∈ files, f.buffer.live C ∧ f.buffer.taken = 0) :
    (∃ files1, readFromAll files = ReadAll.ok files1 ∧ ∀ f ∈ files1, f.buffer.live C) ∨
      ∃ name files1, readFromAll files = ReadAll.failed name files1 := by
  induction files with
  | nil => exact Or.inl ⟨[], rfl, by simp⟩
  | cons f rest ih =>
    obtain ⟨hf, hft⟩ := h f (List.mem_cons_self _ _)
    obtain ⟨b1, h1, hr, hb1⟩ := Buffer_readFromFile_live C f.buffer f.handle hf hft
    unfold readFromAll
    simp only [hr]
    by_cases herr : h1.error = true
    · simp only [herr, if_true]
      exact Or.inr ⟨_, _, rfl⟩
    · simp only [herr, Bool.false_eq_true, if_false]
      rcases ih (fun g hg => h g (List.mem_cons_of_mem _ hg)) with
        ⟨rest1, hrest, hlive⟩ | ⟨name, rest1, hrest⟩
      · left
        refine ⟨_, by rw [hrest], ?_⟩
        intro g hg
        rcases List.mem_cons.1 hg with rfl | hg
        · exact hb1
        · exact hlive g hg
      · right
        exact ⟨_, _, by rw [hrest]⟩

theorem Buffer_xor_uint64_live (C : Nat) (h8 : C % 8 = 0) (bigEndian : Bool)
    (left right : Buffer) (hl : left.live C) (hr : right.live C) :
    ∃ left1, Buffer_xor_uint64 bigEndian left right = some left1 ∧ left1.live C := by
  obtain ⟨hls, hlm⟩ := hl
  obtain ⟨hrs, hrm⟩ := hr
  cases hm : left.memory with
  | none => simp [hm] at hlm
  | some l =>
    cases hm2 : right.memory with
    | none => simp [hm2] at hrm
    | some r =>
      unfold Buffer_xor_uint64
      simp only [hls, hrs, ne_eq, not_true_eq_false, if_false, h8, hm, hm2]
      exact ⟨_, rfl, rfl, rfl⟩

theorem xorAllInto_live (C : Nat) (h8 : C % 8 = 0) (bigEndian : Bool) (files : List File)
    (hfiles : ∀ f ∈ files, f.buffer.live C) (out : Buffer) (hout : out.live C) :
    ∃ out1, xorAllInto bigEndian out files = some out1 ∧ out1.live C := by
  induction files generalizing out with
  | nil => exact ⟨out, rfl, hout⟩
  | cons f rest ih =>
    obtain ⟨out1, hx, hlive⟩ := Buffer_xor_uint64_live C h8 bigEndian out f.buffer hout
      (hfiles f (List.mem_cons_self _ _))
    unfold xorAllInto
    simp only [hx]
    exact ih (fun g hg => hfiles g (List.mem_cons_of_mem _ hg)) out1 hlive

/-- A pass entered in a ready state does not end abnormally, and when the
loop continues the next state is ready. -/
theorem loopBody_ready (env : Env) (C : Nat) (h8 : C % 8 = 0) (st : State)
    (hst : st.ready C) :
    (∃ code st1, loopBody env st = Step.done code st1) ∨
      ∃ st1, loopBody env st = Step.next st1 ∧ st1.ready C := by
  obtain ⟨hin, hout⟩ := hst
  rcases readFromAll_live C st.inputFiles hin with ⟨files, hread, hlive⟩ | ⟨name, files, hread⟩
  · unfold loopBody
    simp only [hread]
    split
    · exact Or.inl ⟨_, _, rfl⟩
    · obtain ⟨hos, hom⟩ := hout
      cases hm : st.outputBuffer.memory with
      | none => simp [hm] at hom
      | some mem =>
        simp only [Buffer_zero, hm]
        have key1 : ∀ X : Buffer, X.live C → xorAllInto env.bigEndian X files ≠ none := by
          intro X hX hnone
          obtain ⟨o, ho, _⟩ := xorAllInto_live C h8 env.bigEndian files hlive X hX
          rw [ho] at hnone
          cases hnone
        have key2 : ∀ X o : Buffer, X.live C → xorAllInto env.bigEndian X files = some o →
            o.live C := by
          intro X o hX hsome
          obtain ⟨o1, ho1, hl1⟩ := xorAllInto_live C h8 env.bigEndian files hlive X hX
          rw [ho1] at hsome
          cases hsome
          exact hl1
        split
        · rename_i heq
          exact absurd heq (key1 _ (by exact ⟨hos, rfl⟩))
        rename_i out1 heq
        have hlive1 : out1.live C := key2 _ out1 (by exact ⟨hos, rfl⟩) heq
        obtain ⟨hs1, hm1⟩ := hlive1
        cases hmo : out1.memory with
        | none => simp [hmo] at hm1
        | some m1 =>
          simp only [Buffer_writeToFile, hmo]
          split
          · exact Or.inl ⟨_, _, rfl⟩
          · split
            · exact Or.inl ⟨_, _, rfl⟩
            · right
              refine ⟨_, rfl, ?_, hs1, by rw [hmo]; rfl⟩
              intro f hf
              obtain ⟨x, hx1, rfl⟩ := List.mem_map.1 hf
              exact ⟨hlive x hx1, rfl⟩
  · left
    unfold loopBody
    simp only [hread]
    exact ⟨_, _, rfl⟩

theorem mainLoop_no_abort (env : Env) (C : Nat) (h8 : C % 8 = 0) (fuel : Nat) :
    ∀ (iterations : Nat) (st : State), st.ready C →
      (mainLoop env fuel iterations st).outcome ≠ Outcome.aborted := by
  induction fuel with
  | zero =>
    intro iterations st _
    unfold mainLoop
    simp
  | succ fuel ih =>
    intro iterations st hst
    unfold mainLoop
    rcases loopBody_ready env C h8 st hst with ⟨code, st1, hbody⟩ | ⟨st1, hbody, hready⟩
    · rw [hbody]
      simp
    · rw [hbody]
      exact ih (iterations + 1) st1 hready

theorem prepareFiles_ready (C : Nat) (argv : List Arg) (i : Nat) (files : List File)
    (h : prepareFiles C argv i = Except.ok files) :
    ∀ f ∈ files, f.buffer.live C ∧ f.buffer.taken = 0 := by
  induction argv generalizing i files with
  | nil =>
    unfold prepareFiles at h
    cases h
    simp
  | cons a rest ih =>
    unfold prepareFiles at h
    cases ha : a.handle with
    | none => simp [ha] at h
    | some hd =>
      simp only [ha] at h
      by_cases hnull : (Buffer_new C a.memory).memory.isNone = true
      · simp [hnull] at h
      · simp only [hnull, Bool.false_eq_true, if_false] at h
        cases hrest : prepareFiles C rest (i + 1) with
        | error e => simp [hrest] at h
        | ok fs =>
          simp only [hrest, Except.ok.injEq] at h
          subst h
          intro f hf
          rcases List.mem_cons.1 hf with rfl | hf
          · refine ⟨⟨rfl, ?_⟩, rfl⟩
            cases hmm : (Buffer_new C a.memory).memory with
            | none => simp [hmm] at hnull
            | some m => rfl
          · exact ih (i + 1) fs hrest f hf

/-- No run of `main` with a capacity that is a multiple of 8 ends abnormally. -/
theorem main_no_abort (C : Nat) (h8 : C % 8 = 0) (env : Env) (argv : List Arg) (fuel : Nat) :
    (main C env argv fuel).outcome ≠ Outcome.aborted := by
  unfold main
  simp only
  split
  · simp
  · split
    · simp
    · split
      · simp
      · rename_i hnull _ _
        split
        · simp
        · rename_i files hprep
          apply mainLoop_no_abort env C h8
          refine ⟨prepareFiles_ready C argv 0 files hprep, rfl, ?_⟩
          cases hm : (Buffer_new C env.outputMemory).memory with
          | none => simp [hm] at hnull
          | some m => rfl

/-- C19: the assertions are never violated in a run of `main`.  In the
embedding a call of `Buffer_readFromFile` on a buffer with `taken ≠ 0`, or of
`Buffer_xor_uint64` on buffers of different sizes or of a size that is not a
multiple of 8, ends the run abnormally.  With the capacity of the program, no
run does, whatever the environment, the arguments and the number of passes;
and every pass entered with all input buffers at `taken = 0` and all buffers
of size `bufferSize` either returns from `main` or hands such a state to the
next pass. -/
theorem assertions_never_violated (env : Env) (argv : List Arg) (fuel : Nat) :
    (main bufferSize env argv fuel).outcome ≠ Outcome.aborted ∧
    (∀ st : State, st.ready bufferSize →
      (∃ code st1, loopBody env st = Step.done code st1) ∨
        ∃ st1, loopBody env st = Step.next st1 ∧ st1.ready bufferSize) :=
  ⟨main_no_abort bufferSize (by decide) env argv fuel,
    fun st hst => loopBody_ready env bufferSize (by decide) st hst⟩

theorem assertions_never_violated_witness :
    (main bufferSize failingSinkEnv
        [{ name := "a"
           handle := some { data := [1, 2, 3], failAt := some 2, eof := false, error := false }
           memory := some (fun _ => 1) },
          { name := "b", handle := none, memory := none }]
        7).outcome ≠ Outcome.aborted :=
  (assertions_never_violated failingSinkEnv
    [{ name := "a"
       handle := some { data := [1, 2, 3], failAt := some 2, eof := false, error := false }
       memory := some (fun _ => 1) },
      { name := "b", handle := none, memory := none }] 7).1

/-- Below `2 ^ 32` increments the `unsigned int` lane counter has not wrapped. -/
theorem chunkIndex_eq (i : Nat) (h : i < 2 ^ 32) : chunkIndex i = i := by
  induction i with
  | zero => rfl
  | succ n ih =>
    show (chunkIndex n + 1) % 2 ^ 32 = n + 1
    rw [ih (by omega)]
    exact Nat.mod_eq_of_lt h

/-- C20: the loop terminates.  For `n ≥ 1` sources with least length `m`, at
a capacity `C > 0` of whole 8-byte lanes whose number fits the `unsigned int`
lane counter of `Buffer_xor_uint64` (the capacity `bufferSize` of the program
is one), the counter of the code reaches the lane count `C / 8` without
wrapping, as the lane counter of the embedding does, and in a run without
read or write errors the loop is left after exactly `m / C + 1` passes:
through the break (exit status 0) when all sources have length `m`, through
the length-mismatch return (exit status 6) otherwise. -/
theorem loop_terminates (bigEndian : Bool) (g : Nat → Byte) (C m fuel : Nat)
    (srcs : List Source) (hC : 0 < C) (h8 : C % 8 = 0) (hlanes : C / 8 < 2 ^ 32)
    (hn : 1 ≤ srcs.length)
    (hmin : ∀ s ∈ srcs, m ≤ s.data.length) (hex : ∃ s ∈ srcs, s.data.length = m)
    (hfuel : m / C + 1 ≤ fuel) :
    (∀ i, i ≤ C / 8 → chunkIndex i = i) ∧
    (main C (idealEnv bigEndian g) (srcs.map Source.toArg) fuel).iterations = m / C + 1 ∧
    ((∀ s ∈ srcs, s.data.length = m) →
      (main C (idealEnv bigEndian g) (srcs.map Source.toArg) fuel).outcome = Outcome.exit 0) ∧
    ((∃ s ∈ srcs, s.data.length ≠ m) →
      (main C (idealEnv bigEndian g) (srcs.map Source.toArg) fuel).outcome = Outcome.exit 6) ∧
    ((main C (idealEnv bigEndian g) (srcs.map Source.toArg) fuel).outcome = Outcome.exit 0 ∨
      (main C (idealEnv bigEndian g) (srcs.map Source.toArg) fuel).outcome
        = Outcome.exit 6) := by
  have hne : srcs ≠ [] := by
    intro h
    subst h
    simp at hn
  refine ⟨fun i hi => chunkIndex_eq i (lt_of_le_of_lt hi hlanes), ?_⟩
  by_cases hall : ∀ s ∈ srcs, s.data.length = m
  · rw [main_equal bigEndian g C hC h8 srcs hne m hall fuel hfuel]
    refine ⟨rfl, fun _ => rfl, ?_, Or.inl rfl⟩
    rintro ⟨s, hs, hsm⟩
    exact absurd (hall s hs) hsm
  · have hex2 : ∃ s ∈ srcs, s.data.length ≠ m := by
      by_contra hcon
      apply hall
      intro s hs
      by_contra hsm
      exact hcon ⟨s, hs, hsm⟩
    obtain ⟨d, hd⟩ := main_unequal bigEndian g C hC h8 srcs m hmin hex hex2 fuel hfuel
    rw [hd]
    exact ⟨rfl, fun h => absurd h hall, fun _ => rfl, Or.inr rfl⟩

theorem loop_terminates_witness :
    (main 8 (idealEnv false (fun _ => 0))
        ([({ name := "a", data := [1, 2, 3, 4, 5, 6, 7, 8, 9, 10, 11, 12, 13, 14, 15, 16, 17]
             garbage := fun _ => 7 } : Source),
          { name := "b", data := [1, 2, 3, 4, 5, 6, 7, 8, 9, 10, 11, 12, 13, 14, 15, 16, 17, 18]
            garbage := fun _ => 9 }].map Source.toArg)
        3).iterations = 17 / 8 + 1 ∧
    (main 8 (idealEnv false (fun _ => 0))
        ([({ name := "a", data := [1, 2, 3, 4, 5, 6, 7, 8, 9, 10, 11, 12, 13, 14, 15, 16, 17]
             garbage := fun _ => 7 } : Source),
          { name := "b", data := [1, 2, 3, 4, 5, 6, 7, 8, 9, 10, 11, 12, 13, 14, 15, 16, 17, 18]
            garbage := fun _ => 9 }].map Source.toArg)
        3).outcome = Outcome.exit 6 ∧
    (main bufferSize (idealEnv false (fun _ => 0))
        ([({ name := "a", data := [1, 2, 3], garbage := fun _ => 7 } : Source),
          { name := "b", data := [4, 5, 6], garbage := fun _ => 9 }].map Source.toArg)
        1).iterations = 3 / bufferSize + 1 ∧
    (main bufferSize (idealEnv false (fun _ => 0))
        ([({ name := "a", data := [1, 2, 3], garbage := fun _ => 7 } : Source),
          { name := "b", data := [4, 5, 6], garbage := fun _ => 9 }].map Source.toArg)
        1).outcome = Outcome.exit 0 :=
  let h := loop_terminates false (fun _ => 0) 8 17 3
    [({ name := "a", data := [1, 2, 3, 4, 5, 6, 7, 8, 9, 10, 11, 12, 13, 14, 15, 16, 17]
        garbage := fun _ => 7 } : Source),
      { name := "b", data := [1, 2, 3, 4, 5, 6, 7, 8, 9, 10, 11, 12, 13, 14, 15, 16, 17, 18]
        garbage := fun _ => 9 }]
    (by decide) (by decide) (by decide) (by decide) (by simp)
    ⟨_, List.mem_cons_self _ _, rfl⟩ (by decide)
  let k := loop_terminates false (fun _ => 0) bufferSize 3 1
    [({ name := "a", data := [1, 2, 3], garbage := fun _ => 7 } : Source),
      { name := "b", data := [4, 5, 6], garbage := fun _ => 9 }]
    (by decide) (by decide) (by decide) (by decide) (by simp)
    ⟨_, List.mem_cons_self _ _, rfl⟩ (by decide)
  ⟨h.2.1, h.2.2.2.1 ⟨_, List.mem_cons_of_mem _ (List.mem_cons_self _ _), by decide⟩,
    k.2.1, k.2.2.1 (by simp)⟩

end Xor
